import Mathlib

/-!
Verification of the gh-identity core: binding resolution (internal/resolve),
the binding store (internal/config/bindings.go), the gitconfig synchronizer
(internal/gitconfig/gitconfig.go), the profile store (config/profiles), the
profile-remove cascade (internal/cmd/profile.go) and the shell hook
formatters (package hook).

Go strings are modelled as lists of characters (`Str`); Go may fail with an
error, which is modelled with `Option`/`Except`.  The ambient process state
that the Go code consults (`os.UserHomeDir`, `os.Getwd`) is modelled by an
explicit `Env` record; file contents are modelled as the list of their lines,
exactly the representation the Go synchronizer works on after `readLines`.
-/

namespace GhIdentity

/-- Go strings, modelled as lists of characters. -/
abbrev Str := List Char

/-- Build a `Str` from a Lean string literal. -/
def strL (s : String) : Str := s.toList

/-- Go `strings.HasPrefix`. -/
def startsWith (s pre : Str) : Bool := pre.isPrefixOf s

/-- Go `strings.HasSuffix`. -/
def endsWith (s suf : Str) : Bool := suf.isSuffixOf s

/-- Go `strings.TrimSuffix`: drop `suf` from the end of `s` when present. -/
def trimSuffix (s suf : Str) : Str :=
  if endsWith s suf then s.take (s.length - suf.length) else s

/-- Whitespace predicate of Go `unicode.IsSpace`, restricted to the Latin-1
range actually reachable in the modelled configuration lines. -/
def goIsSpace (c : Char) : Bool :=
  (c == ' ') || (c == '\t') || (c == '\n') || (c == '\x0b') ||
  (c == '\x0c') || (c == '\r') || (c == '\x85') || (c == '\xa0')

/-- Go `strings.TrimSpace`. -/
def trimSpace (s : Str) : Str :=
  ((s.dropWhile goIsSpace).reverse.dropWhile goIsSpace).reverse

/-- Go `strings.Index`: first index at which `pat` occurs in `s`, `none`
standing for Go's `-1`. -/
def indexOfSubstr (pat : Str) : Str → Option Nat
  | [] => if startsWith [] pat then some 0 else none
  | c :: rest =>
    if startsWith (c :: rest) pat then some 0
    else (indexOfSubstr pat rest).map (· + 1)

/-- What a `..` component does to the component stack of `filepath.Clean`:
pop a poppable component; keep the `..` when the path is relative and
nothing is poppable; drop it at the root. -/
def dotdotStep (rooted : Bool) : List Str → List Str
  | [] => if rooted then [] else [['.', '.']]
  | a :: acc' => if a = ['.', '.'] then ['.', '.'] :: a :: acc' else acc'

/-- The component-stack pass of Go `path/filepath.Clean` (Unix rules): empty
and `.` components are dropped, `..` pops a previous component, a `..` at the
start is kept for relative paths and dropped for rooted ones. -/
def cleanComps (rooted : Bool) : List Str → List Str → List Str
  | acc, [] => acc.reverse
  | acc, c :: rest =>
    if c = [] ∨ c = ['.'] then cleanComps rooted acc rest
    else if c = ['.', '.'] then cleanComps rooted (dotdotStep rooted acc) rest
    else cleanComps rooted (c :: acc) rest

/-- Go `path/filepath.Clean` for Unix separators. -/
def clean (p : Str) : Str :=
  if p = [] then ['.']
  else
    let rooted := startsWith p ['/']
    let comps := cleanComps rooted [] (p.splitOn '/')
    let joined := List.intercalate ['/'] comps
    if rooted then '/' :: joined
    else if joined = [] then ['.'] else joined

/-- The ambient process state consulted by path expansion: the result of
`os.UserHomeDir` and of `os.Getwd`, either of which may be unavailable. -/
structure Env where
  home : Option Str
  cwd : Option Str

/-- Go `path/filepath.Abs`: a rooted path is cleaned, a relative one is
joined onto the working directory; failure of `Getwd` is the only error. -/
def goAbs (env : Env) (p : Str) : Option Str :=
  if startsWith p ['/'] then some (clean p)
  else
    match env.cwd with
    | none => none
    | some wd => some (clean (wd ++ '/' :: p))

/-- `config.ExpandPath`: resolve a leading tilde against the home directory,
make the path absolute, and clean it.  Failure to resolve the home directory
(or the working directory for a relative path) is the error case. -/
def expandPath (env : Env) (p : Str) : Option Str :=
  if startsWith p (strL ("~/")) || p == ['~'] then
    match env.home with
    | none => none
    | some h => (goAbs env (clean (h ++ '/' :: p.drop 1))).map clean
  else
    (goAbs env p).map clean

/-- `resolve.isSubpath`: child equals parent, or has `parent ++ "/"` as a
string prefix, after cleaning both. -/
def isSubpath (child parent : Str) : Bool :=
  let c := clean child
  let pa := clean parent
  c == pa || startsWith c (pa ++ ['/'])

/-- `config.Binding`: a directory path bound to a profile name. -/
structure Binding where
  path : Str
  profile : Str
deriving DecidableEq

/-- `resolve.Result`. -/
structure Result where
  profile : Str
  boundPath : Str
  isDefault : Bool
deriving DecidableEq

/-- The loop state of `resolve.ForDirectory`: best profile, best stored
path, best depth (initially `-1`). -/
structure LoopState where
  bestMatch : Str
  bestPath : Str
  bestDepth : Int
deriving DecidableEq

/-- One iteration of the binding loop in `resolve.ForDirectory`: bindings
whose stored path fails to expand are skipped, a matching binding replaces
the current best only when strictly deeper. -/
def resolveStep (env : Env) (expanded : Str) (acc : LoopState) (b : Binding) : LoopState :=
  match expandPath env b.path with
  | none => acc
  | some bPath =>
    if isSubpath expanded bPath then
      let depth : Int := (bPath.count '/' : Nat)
      if acc.bestDepth < depth then ⟨b.profile, b.path, depth⟩ else acc
    else acc

/-- `resolve.ForDirectory`: expand the query directory, scan all bindings
for the deepest match, and otherwise fall back to the default profile. -/
def forDirectory (env : Env) (dir : Str) (bindings : List Binding)
    (defaultProfile : Str) : Option Result :=
  match expandPath env dir with
  | none => none
  | some expanded =>
    let st := bindings.foldl (resolveStep env expanded) ⟨[], [], -1⟩
    if st.bestMatch ≠ [] then some ⟨st.bestMatch, st.bestPath, false⟩
    else some ⟨defaultProfile, [], decide (defaultProfile ≠ [])⟩

/-- Claim-side notion for resolution: the candidate a binding contributes,
namely its expanded path when it expands and matches the query. -/
def matchCandidate (env : Env) (expanded : Str) (b : Binding) : Option (Binding × Str) :=
  match expandPath env b.path with
  | none => none
  | some bp => if isSubpath expanded bp then some (b, bp) else none

/-- Claim-side notion: all bindings matching the expanded query directory,
paired with their expanded paths, in store order. -/
def matchingBindings (env : Env) (expanded : Str) (bs : List Binding) : List (Binding × Str) :=
  bs.filterMap (matchCandidate env expanded)

/-- Depth of a match: separator count of the expanded binding path. -/
def depthOf (x : Binding × Str) : Int := (x.2.count '/' : Nat)

/-- Claim-side selection: the first element of greatest depth (an element is
kept over any later one of no greater depth). -/
def firstDeepest : List (Binding × Str) → Option (Binding × Str)
  | [] => none
  | x :: xs =>
    match firstDeepest xs with
    | none => some x
    | some y => if depthOf x < depthOf y then some y else some x

/-- Merge of two optional candidates, preferring the left unless the right
is strictly deeper. -/
def combineBest : Option (Binding × Str) → Option (Binding × Str) → Option (Binding × Str)
  | none, o => o
  | some x, none => some x
  | some x, some y => if depthOf x < depthOf y then some y else some x

/-- Loop state corresponding to an optional current-best candidate. -/
def stateOf : Option (Binding × Str) → LoopState
  | none => ⟨[], [], -1⟩
  | some x => ⟨x.1.profile, x.1.path, depthOf x⟩

/-- The scan of `BindingsFile.AddBinding`: the first entry whose stored path
expands to the query's expansion gets its profile replaced in place (entries
that fail to expand are skipped); if none matches, a new binding holding the
expanded path is appended. -/
def addReplace (env : Env) (expanded profile : Str) : List Binding → List Binding
  | [] => [⟨expanded, profile⟩]
  | b :: rest =>
    match expandPath env b.path with
    | none => b :: addReplace env expanded profile rest
    | some be =>
      if be = expanded then { b with profile := profile } :: rest
      else b :: addReplace env expanded profile rest

/-- `BindingsFile.AddBinding`: fails only when the supplied path fails to
expand. -/
def addBinding (env : Env) (bs : List Binding) (dirPath profile : Str) :
    Option (List Binding) :=
  match expandPath env dirPath with
  | none => none
  | some expanded => some (addReplace env expanded profile bs)

/-- Error cases of `BindingsFile.RemoveBinding`. -/
inductive RemoveErr where
  | expandFailed
  | notFound
deriving DecidableEq

instance {ε α : Type} [DecidableEq ε] [DecidableEq α] : DecidableEq (Except ε α) := by
  intro a b
  cases a with
  | error e =>
    cases b with
    | error e' =>
      exact if h : e = e' then isTrue (by rw [h])
        else isFalse (by intro hc; injection hc with h2; exact h h2)
    | ok w => exact isFalse (by intro hc; cases hc)
  | ok w =>
    cases b with
    | error e' => exact isFalse (by intro hc; cases hc)
    | ok w' =>
      exact if h : w = w' then isTrue (by rw [h])
        else isFalse (by intro hc; injection hc with h2; exact h h2)

/-- The scan of `BindingsFile.RemoveBinding`: remove the first entry whose
stored path expands to the query's expansion; entries failing to expand are
skipped and a miss at the end is the not-found error. -/
def removeScan (env : Env) (expanded : Str) : List Binding → Except RemoveErr (List Binding)
  | [] => .error .notFound
  | b :: rest =>
    match expandPath env b.path with
    | none => (removeScan env expanded rest).map (fun r => b :: r)
    | some be =>
      if be = expanded then .ok rest
      else (removeScan env expanded rest).map (fun r => b :: r)

/-- `BindingsFile.RemoveBinding`. -/
def removeBinding (env : Env) (bs : List Binding) (dirPath : Str) :
    Except RemoveErr (List Binding) :=
  match expandPath env dirPath with
  | none => .error .expandFailed
  | some expanded => removeScan env expanded bs

/-- The scan of `BindingsFile.FindBinding`. -/
def findScan (env : Env) (expanded : Str) : List Binding → Str
  | [] => []
  | b :: rest =>
    match expandPath env b.path with
    | none => findScan env expanded rest
    | some be => if be = expanded then b.profile else findScan env expanded rest

/-- `BindingsFile.FindBinding`: the profile bound to exactly this normalized
path, or the empty string (also when the query path fails to expand). -/
def findBinding (env : Env) (bs : List Binding) (dirPath : Str) : Str :=
  match expandPath env dirPath with
  | none => []
  | some expanded => findScan env expanded bs

/-- The gitconfig marker comment `# managed by gh-identity`. -/
def marker : Str := strL ("# managed by gh-identity")

/-- Append a trailing separator to the directory path, as `AddIncludeIf` and
`RemoveIncludeIf` do before building the directive. -/
def ensureSlash (dp : Str) : Str := if endsWith dp ['/'] then dp else dp ++ ['/']

/-- The directive header for a (slash-terminated) directory path. -/
def directiveFor (dp : Str) : Str :=
  strL ("[includeIf \"gitdir:") ++ dp ++ strL ("\"]")

/-- The fragment-reference line written under a directive. -/
def pathLineFor (fragmentPath : Str) : Str := strL ("    path = ") ++ fragmentPath

/-- `AddIncludeIf`'s view of a line: trimmed, with the trailing marker
comment removed when present. -/
def bareOf (line : Str) : Str := trimSuffix (trimSpace line) (' ' :: marker)

/-- Whether a line is a fragment-reference line (`path = ` after trim). -/
def isPathLine (line : Str) : Bool := startsWith (trimSpace line) (strL ("path = "))

/-- The scan of `AddIncludeIf`: find the first directive line that is
immediately followed by a path line, and replace that path line; `none` when
no such pair exists. -/
def scanUpdate (directive pathLine : Str) : List Str → Option (List Str)
  | [] => none
  | [_] => none
  | l1 :: l2 :: rest =>
    if bareOf l1 = directive ∧ isPathLine l2 = true then some (l1 :: pathLine :: rest)
    else (scanUpdate directive pathLine (l2 :: rest)).map (fun r => l1 :: r)

/-- `gitconfig.AddIncludeIf` on the parsed line list: update the path line
under an existing directive, or append a blank separator (when needed), the
marked directive and its path line. -/
def addIncludeIf (dirPath fragmentPath : Str) (lines : List Str) : List Str :=
  match scanUpdate (directiveFor (ensureSlash dirPath)) (pathLineFor fragmentPath) lines with
  | some r => r
  | none =>
    (if lines ≠ [] ∧ lines.getLast? ≠ some [] then lines ++ [[]] else lines)
      ++ [directiveFor (ensureSlash dirPath) ++ ' ' :: marker, pathLineFor fragmentPath]

/-- The line test of `RemoveIncludeIf`: the line, with or without the
trailing marker, trims to the directive. -/
def isRemoveMatch (directive line : Str) : Bool :=
  (trimSpace (trimSuffix line (' ' :: marker)) == directive) || (trimSpace line == directive)

/-- The scan of `RemoveIncludeIf`: drop every directive line and the path
line immediately following one. -/
def removeMatches (directive : Str) : Bool → List Str → List Str
  | _, [] => []
  | skip, l :: rest =>
    if isRemoveMatch directive l then removeMatches directive true rest
    else if skip ∧ isPathLine l = true then removeMatches directive false rest
    else l :: removeMatches directive false rest

/-- Trailing blank-line trim performed by `RemoveIncludeIf`. -/
def dropTrailingEmpty (ls : List Str) : List Str :=
  (ls.reverse.dropWhile (· == [])).reverse

/-- `gitconfig.RemoveIncludeIf` on the parsed line list. -/
def removeIncludeIf (dirPath : Str) (lines : List Str) : List Str :=
  dropTrailingEmpty (removeMatches (directiveFor (ensureSlash dirPath)) false lines)

/-- The per-line extraction of `ListManagedIncludeIfs`: a line whose trimmed
form contains the marker anywhere yields the text between `gitdir:` and the
closing quote-bracket. -/
def extractManaged (line : Str) : Option Str :=
  let trimmed := trimSpace line
  if (indexOfSubstr marker trimmed).isSome then
    match indexOfSubstr (strL ("gitdir:")) trimmed with
    | none => none
    | some start =>
      match indexOfSubstr (strL ("\"]")) (trimmed.drop start) with
      | none => none
      | some e => some ((trimmed.drop (start + 7)).take (e - 7))
  else none

/-- `gitconfig.ListManagedIncludeIfs` on the parsed line list. -/
def listManagedIncludeIfs (lines : List Str) : List Str :=
  lines.filterMap extractManaged

/-- `config.Profile`. -/
structure Profile where
  ghUser : Str
  gitName : Str
  gitEmail : Str
  sshKey : Str
deriving DecidableEq

/-- `config.ProfilesFile`: the profile map (modelled as an association list
with unique keys) and the optional default profile name. -/
structure ProfilesFile where
  profiles : List (Str × Profile)
  default : Str
deriving DecidableEq

/-- `ProfilesFile.RemoveProfile`: error when absent; otherwise delete the
entry and clear the default when it named the removed profile. -/
def removeProfile (pf : ProfilesFile) (name : Str) : Option ProfilesFile :=
  match pf.profiles.lookup name with
  | none => none
  | some _ =>
    some { profiles := pf.profiles.filter (fun kv => kv.1 != name),
           default := if pf.default = name then [] else pf.default }

/-- The fragment file path for a profile: `Join(Join(configDir, "git"),
name + ".gitconfig")`, with `filepath.Join` cleaning its result. -/
def fragPath (configDir name : Str) : Str :=
  clean (clean (configDir ++ strL ("/git")) ++ '/' :: (name ++ strL (".gitconfig")))

/-- The persistent state touched by the profile-remove cascade: the two
configuration documents, the set of fragment files present, and the lines of
the global gitconfig at `home/.gitconfig`. -/
structure SysState where
  profiles : ProfilesFile
  bindings : List Binding
  fragments : List Str
  gitconfig : List Str
deriving DecidableEq

/-- `cmd.runProfileRemove`: remove the profile (clearing the default when it
pointed at it), drop every binding referencing it, delete its fragment file,
and remove the includeIf directive of each removed binding path that
expands; when the home directory cannot be resolved the global gitconfig is
left untouched. -/
def runProfileRemove (env : Env) (configDir name : Str) (st : SysState) :
    Option SysState :=
  match removeProfile st.profiles name with
  | none => none
  | some pf' =>
    let removedPaths := (st.bindings.filter (fun b => b.profile == name)).map (·.path)
    let remaining := st.bindings.filter (fun b => b.profile != name)
    let fragments' := st.fragments.filter (fun f => f != fragPath configDir name)
    let gitconfig' :=
      match env.home with
      | none => st.gitconfig
      | some _ =>
        removedPaths.foldl (fun gc p =>
          match expandPath env p with
          | none => gc
          | some v => removeIncludeIf v gc) st.gitconfig
    some { profiles := pf', bindings := remaining, fragments := fragments',
           gitconfig := gitconfig' }

/-- A hexadecimal digit character. -/
def hexDigit (n : Nat) : Char :=
  if n < 10 then Char.ofNat (48 + n) else Char.ofNat (87 + n)

/-- One character of Go `strconv.Quote` (the `%q` verb): quote and backslash
escaped, printable ASCII kept, the named control escapes, and a hex escape
otherwise.  (Printability of non-ASCII runes is approximated by escaping
them; no modelled value contains such runes.) -/
def quoteChar (c : Char) : Str :=
  if c = '"' ∨ c = '\\' then ['\\', c]
  else if 0x20 ≤ c.toNat ∧ c.toNat ≤ 0x7e then [c]
  else if c = '\x07' then ['\\', 'a']
  else if c = '\x08' then ['\\', 'b']
  else if c = '\x0c' then ['\\', 'f']
  else if c = '\n' then ['\\', 'n']
  else if c = '\r' then ['\\', 'r']
  else if c = '\t' then ['\\', 't']
  else if c = '\x0b' then ['\\', 'v']
  else if c.toNat < 0x100 then
    ['\\', 'x', hexDigit (c.toNat / 16), hexDigit (c.toNat % 16)]
  else
    ['\\', 'u', hexDigit (c.toNat / 4096 % 16), hexDigit (c.toNat / 256 % 16),
     hexDigit (c.toNat / 16 % 16), hexDigit (c.toNat % 16)]

/-- Go `strconv.Quote` / the `%q` formatting verb. -/
def goQuote (s : Str) : Str := '"' :: (s.map quoteChar).flatten ++ ['"']

/-- The fixed head of a fish export statement for a key. -/
def fishHead (key : Str) : Str := strL ("set -gx ") ++ key ++ [' ']

/-- The fixed head of a POSIX export statement for a key. -/
def posixHead (key : Str) : Str := strL ("export ") ++ key ++ ['=']

/-- `hook.writeFishExport`: `set -gx KEY %q\n`. -/
def writeFishExport (key value : Str) : Str := fishHead key ++ (goQuote value ++ ['\n'])

/-- `hook.writePosixExport`: `export KEY=%q\n`. -/
def writePosixExport (key value : Str) : Str := posixHead key ++ (goQuote value ++ ['\n'])

/-- `hook.EnvOutput` of the token-based hook variant. -/
structure EnvOutputTok where
  ghToken : Str
  gitAuthorName : Str
  gitAuthorEmail : Str
  gitCommitterName : Str
  gitCommitterEmail : Str
  ghIdentityProfile : Str
  ghSSHCommand : Str
  gitAskPass : Str
deriving DecidableEq

/-- `hook.formatExports` (token-based variant), modelled as the list of
statement strings the builder receives in order; the emitted text is their
concatenation.  The shell type is a Go string; everything but `fish` takes
the POSIX branch. -/
def formatExports (shell : Str) (env : EnvOutputTok) : List Str :=
  if shell = strL ("fish") then
    [writeFishExport (strL ("GH_TOKEN")) env.ghToken,
     writeFishExport (strL ("GIT_AUTHOR_NAME")) env.gitAuthorName,
     writeFishExport (strL ("GIT_AUTHOR_EMAIL")) env.gitAuthorEmail,
     writeFishExport (strL ("GIT_COMMITTER_NAME")) env.gitCommitterName,
     writeFishExport (strL ("GIT_COMMITTER_EMAIL")) env.gitCommitterEmail,
     writeFishExport (strL ("GH_IDENTITY_PROFILE")) env.ghIdentityProfile] ++
    (if env.ghSSHCommand ≠ [] then
      [writeFishExport (strL ("GIT_SSH_COMMAND")) env.ghSSHCommand] else []) ++
    (if env.gitAskPass ≠ [] then
      [writeFishExport (strL ("GIT_ASKPASS")) env.gitAskPass] else [])
  else
    [writePosixExport (strL ("GH_TOKEN")) env.ghToken,
     writePosixExport (strL ("GIT_AUTHOR_NAME")) env.gitAuthorName,
     writePosixExport (strL ("GIT_AUTHOR_EMAIL")) env.gitAuthorEmail,
     writePosixExport (strL ("GIT_COMMITTER_NAME")) env.gitCommitterName,
     writePosixExport (strL ("GIT_COMMITTER_EMAIL")) env.gitCommitterEmail,
     writePosixExport (strL ("GH_IDENTITY_PROFILE")) env.ghIdentityProfile] ++
    (if env.ghSSHCommand ≠ [] then
      [writePosixExport (strL ("GIT_SSH_COMMAND")) env.ghSSHCommand] else []) ++
    (if env.gitAskPass ≠ [] then
      [writePosixExport (strL ("GIT_ASKPASS")) env.gitAskPass] else [])

/-- `hook.EnvOutput` of the auth-switch hook variant. -/
structure EnvOutputSwitch where
  ghUser : Str
  gitAuthorName : Str
  gitAuthorEmail : Str
  gitCommitterName : Str
  gitCommitterEmail : Str
  ghIdentityProfile : Str
  ghSSHCommand : Str
deriving DecidableEq

/-- The `gh auth switch` statement emitted by the auth-switch variant. -/
def ghSwitchLine (u : Str) : Str :=
  strL ("gh auth switch --user ") ++ (u ++ strL (" 2>/dev/null\n"))

/-- `hook.formatOutput` (auth-switch variant), as its ordered statement
list. -/
def formatOutput (shell : Str) (env : EnvOutputSwitch) : List Str :=
  if shell = strL ("fish") then
    [strL ("set -e GH_TOKEN 2>/dev/null\n"),
     ghSwitchLine env.ghUser,
     writeFishExport (strL ("GIT_AUTHOR_NAME")) env.gitAuthorName,
     writeFishExport (strL ("GIT_AUTHOR_EMAIL")) env.gitAuthorEmail,
     writeFishExport (strL ("GIT_COMMITTER_NAME")) env.gitCommitterName,
     writeFishExport (strL ("GIT_COMMITTER_EMAIL")) env.gitCommitterEmail,
     writeFishExport (strL ("GH_IDENTITY_PROFILE")) env.ghIdentityProfile] ++
    (if env.ghSSHCommand ≠ [] then
      [writeFishExport (strL ("GIT_SSH_COMMAND")) env.ghSSHCommand] else [])
  else
    [strL ("unset GH_TOKEN 2>/dev/null\n"),
     ghSwitchLine env.ghUser,
     writePosixExport (strL ("GIT_AUTHOR_NAME")) env.gitAuthorName,
     writePosixExport (strL ("GIT_AUTHOR_EMAIL")) env.gitAuthorEmail,
     writePosixExport (strL ("GIT_COMMITTER_NAME")) env.gitCommitterName,
     writePosixExport (strL ("GIT_COMMITTER_EMAIL")) env.gitCommitterEmail,
     writePosixExport (strL ("GH_IDENTITY_PROFILE")) env.ghIdentityProfile] ++
    (if env.ghSSHCommand ≠ [] then
      [writePosixExport (strL ("GIT_SSH_COMMAND")) env.ghSSHCommand] else [])

/-- Claim-side test: whether a statement sets the given key, in either
dialect. -/
def isKeyStmt (key line : Str) : Bool :=
  startsWith line (fishHead key) || startsWith line (posixHead key)

/-- Claim-side count of statements setting a key. -/
def countKey (key : Str) (stmts : List Str) : Nat := stmts.countP (isKeyStmt key)

/-- Claim-side rendering of a normalized absolute path from its component
list (`renderAbs [] = "/"`). -/
def renderAbs (comps : List Str) : Str := '/' :: List.intercalate ['/'] comps

/-- A well-formed path component of a cleaned path: nonempty, not a dot
component, and separator-free. -/
def validComp (c : Str) : Prop :=
  c ≠ [] ∧ c ≠ ['.'] ∧ c ≠ ['.', '.'] ∧ '/' ∉ c

instance (c : Str) : Decidable (validComp c) := by
  unfold validComp
  infer_instance

/-- Key `k`'s statement heads neither extend nor are extended by the head
`x` of some other statement. -/
def keysIndep (k x : Str) : Prop :=
  ¬ fishHead k <+: x ∧ ¬ x <+: fishHead k ∧ ¬ posixHead k <+: x ∧ ¬ x <+: posixHead k

instance (k x : Str) : Decidable (keysIndep k x) := by
  unfold keysIndep
  infer_instance

/-- Claim-side invariant of the Binding Store: no two entries share a
normalized (successfully expanded) path. -/
def NodupNorm (env : Env) (bs : List Binding) : Prop :=
  List.Pairwise (fun p q => ∀ w, expandPath env p = some w → expandPath env q ≠ some w)
    (bs.map Binding.path)

/-!  Theorems.  First the resolution engine: the binding loop of
`ForDirectory` computes the first-inserted deepest matching candidate. -/

lemma combineBest_none_right (a : Option (Binding × Str)) : combineBest a none = a := by
  cases a <;> rfl

lemma combineBest_assoc (a b c : Option (Binding × Str)) :
    combineBest (combineBest a b) c = combineBest a (combineBest b c) := by
  rcases c with _ | z
  · rw [combineBest_none_right, combineBest_none_right]
  rcases a with _ | x
  · rfl
  rcases b with _ | y
  · rfl
  by_cases h1 : depthOf x < depthOf y <;> by_cases h2 : depthOf y < depthOf z <;>
    by_cases h3 : depthOf x < depthOf z <;>
      simp only [combineBest, h1, h2, h3, if_true, if_false] <;> omega

lemma firstDeepest_cons (x : Binding × Str) (xs : List (Binding × Str)) :
    firstDeepest (x :: xs) = combineBest (some x) (firstDeepest xs) := by
  cases h : firstDeepest xs <;> simp [firstDeepest, combineBest, h]

lemma firstDeepest_mem {l : List (Binding × Str)} {x : Binding × Str}
    (h : firstDeepest l = some x) : x ∈ l := by
  induction l with
  | nil => simp [firstDeepest] at h
  | cons a l ih =>
    rw [firstDeepest_cons] at h
    cases hl : firstDeepest l with
    | none =>
      rw [hl] at h
      simp only [combineBest, Option.some_inj] at h
      simp [h]
    | some y =>
      rw [hl] at h
      simp only [combineBest] at h
      split_ifs at h <;> simp only [Option.some_inj] at h <;> subst h
      · exact List.mem_cons_of_mem _ (ih hl)
      · exact List.mem_cons_self _ _

lemma matchCandidate_none_eq {env : Env} (e : Str) {b : Binding}
    (h : expandPath env b.path = none) : matchCandidate env e b = none := by
  unfold matchCandidate
  rw [h]

lemma matchCandidate_some_eq {env : Env} (e : Str) {b : Binding} {bp : Str}
    (h : expandPath env b.path = some bp) :
    matchCandidate env e b = if isSubpath e bp = true then some (b, bp) else none := by
  unfold matchCandidate
  rw [h]

lemma matchCandidate_eq_some {env : Env} {e : Str} {b : Binding} {x : Binding × Str} :
    matchCandidate env e b = some x ↔
      ∃ bp, expandPath env b.path = some bp ∧ isSubpath e bp = true ∧ x = (b, bp) := by
  cases hbp : expandPath env b.path with
  | none => simp [matchCandidate_none_eq e hbp, hbp]
  | some bp =>
    rw [matchCandidate_some_eq e hbp]
    by_cases hs : isSubpath e bp = true
    · rw [if_pos hs]
      simp only [hbp, Option.some_inj]
      constructor
      · intro h
        exact ⟨bp, rfl, hs, h.symm⟩
      · rintro ⟨bp', hbp', -, rfl⟩
        rw [hbp']
    · rw [if_neg hs]
      simp only [hbp, Option.some_inj]
      constructor
      · intro h
        exact absurd h (by simp)
      · rintro ⟨bp', hbp', hs', rfl⟩
        subst hbp'
        exact absurd hs' hs

lemma resolveStep_none (env : Env) (e : Str) (acc : LoopState) {b : Binding}
    (h : expandPath env b.path = none) : resolveStep env e acc b = acc := by
  unfold resolveStep
  rw [h]

lemma resolveStep_some (env : Env) (e : Str) (acc : LoopState) {b : Binding} {bp : Str}
    (h : expandPath env b.path = some bp) :
    resolveStep env e acc b
      = if isSubpath e bp then
          (if acc.bestDepth < ((bp.count '/' : Nat) : Int) then
            ⟨b.profile, b.path, ((bp.count '/' : Nat) : Int)⟩
          else acc)
        else acc := by
  unfold resolveStep
  rw [h]

lemma resolveStep_eq (env : Env) (expanded : Str) (cur : Option (Binding × Str)) (b : Binding) :
    resolveStep env expanded (stateOf cur) b
      = stateOf (combineBest cur (matchCandidate env expanded b)) := by
  cases hbp : expandPath env b.path with
  | none => rw [resolveStep_none env expanded _ hbp, matchCandidate_none_eq expanded hbp,
      combineBest_none_right]
  | some bp =>
    rw [resolveStep_some env expanded _ hbp, matchCandidate_some_eq expanded hbp]
    by_cases hs : isSubpath expanded bp = true
    · simp only [hs, if_true]
      cases cur with
      | none =>
        have hlt : (stateOf none).bestDepth < ((bp.count '/' : Nat) : Int) := by
          show (-1 : Int) < ((bp.count '/' : Nat) : Int)
          omega
        rw [if_pos hlt]
        rfl
      | some x =>
        have hrw : ((bp.count '/' : Nat) : Int) = depthOf (b, bp) := rfl
        simp only [combineBest, stateOf, hrw]
        by_cases h1 : depthOf x < depthOf (b, bp)
        · rw [if_pos h1, if_pos h1]
        · rw [if_neg h1, if_neg h1]
    · simp only [Bool.not_eq_true] at hs
      simp only [hs, Bool.false_eq_true, if_false]
      rw [combineBest_none_right]

lemma foldl_resolveStep (env : Env) (expanded : Str) (bs : List Binding) :
    ∀ cur : Option (Binding × Str),
      List.foldl (resolveStep env expanded) (stateOf cur) bs
        = stateOf (combineBest cur (firstDeepest (matchingBindings env expanded bs))) := by
  induction bs with
  | nil =>
    intro cur
    rw [List.foldl_nil]
    have : matchingBindings env expanded [] = [] := rfl
    rw [this]
    show stateOf cur = stateOf (combineBest cur none)
    rw [combineBest_none_right]
  | cons b bs ih =>
    intro cur
    cases hmc : matchCandidate env expanded b with
    | none =>
      have hm : matchingBindings env expanded (b :: bs) = matchingBindings env expanded bs := by
        simp only [matchingBindings, List.filterMap_cons, hmc]
      rw [List.foldl_cons, resolveStep_eq, hmc, combineBest_none_right, ih, hm]
    | some x =>
      have hm : matchingBindings env expanded (b :: bs)
          = x :: matchingBindings env expanded bs := by
        simp only [matchingBindings, List.filterMap_cons, hmc]
      rw [List.foldl_cons, resolveStep_eq, hmc, ih, hm, firstDeepest_cons, combineBest_assoc]

lemma forDirectory_eq_stateOf (env : Env) (dir : Str) (bs : List Binding)
    (defaultProfile : Str) (expanded : Str) (hdir : expandPath env dir = some expanded) :
    forDirectory env dir bs defaultProfile
      = (let st := stateOf (firstDeepest (matchingBindings env expanded bs))
         if st.bestMatch ≠ [] then some ⟨st.bestMatch, st.bestPath, false⟩
         else some ⟨defaultProfile, [], decide (defaultProfile ≠ [])⟩) := by
  simp only [forDirectory, hdir]
  have h0 : (⟨[], [], -1⟩ : LoopState) = stateOf none := rfl
  rw [h0, foldl_resolveStep]
  rfl

/-- C1 (amended): when some binding matches the (successfully expanded)
query directory, `ForDirectory` selects the matching binding of greatest
expanded-path depth, the earlier-inserted one on depth ties — provided that
selected binding's profile name is non-empty — and returns its profile and
stored path with the used-default flag false.  (When the selected binding's
profile is the empty string, the code instead falls back to the default
profile; see the counterexample.) -/
theorem c1_deepest_first (env : Env) (dir : Str) (bs : List Binding)
    (defaultProfile : Str) (expanded : Str) (x : Binding × Str)
    (hdir : expandPath env dir = some expanded)
    (hbest : firstDeepest (matchingBindings env expanded bs) = some x)
    (hne : x.1.profile ≠ []) :
    forDirectory env dir bs defaultProfile = some ⟨x.1.profile, x.1.path, false⟩ := by
  rw [forDirectory_eq_stateOf env dir bs defaultProfile expanded hdir, hbest]
  simp only [stateOf]
  rw [if_pos hne]

/-- C1 witness: the spec's deepest-match example, `{/code: P1, /code/org:
P2}` resolving `/code/org/repo` to `P2`. -/
theorem c1_deepest_first_witness :
    expandPath ⟨none, none⟩ (strL ("/code/org/repo")) = some (strL ("/code/org/repo")) ∧
    firstDeepest (matchingBindings ⟨none, none⟩ (strL ("/code/org/repo"))
        [⟨strL ("/code"), strL ("P1")⟩, ⟨strL ("/code/org"), strL ("P2")⟩])
      = some (⟨strL ("/code/org"), strL ("P2")⟩, strL ("/code/org")) ∧
    forDirectory ⟨none, none⟩ (strL ("/code/org/repo"))
        [⟨strL ("/code"), strL ("P1")⟩, ⟨strL ("/code/org"), strL ("P2")⟩] (strL (""))
      = some ⟨strL ("P2"), strL ("/code/org"), false⟩ :=
  ⟨by decide, by decide,
   c1_deepest_first ⟨none, none⟩ (strL ("/code/org/repo"))
     [⟨strL ("/code"), strL ("P1")⟩, ⟨strL ("/code/org"), strL ("P2")⟩] (strL (""))
     (strL ("/code/org/repo")) (⟨strL ("/code/org"), strL ("P2")⟩, strL ("/code/org"))
     (by decide) (by decide) (by decide)⟩

/-- C1 counterexample: with bindings `{/a: P, /a/b: ""}` and default `D`,
the unique deepest matching binding for `/a/b/c` is `/a/b` (depth 2, profile
`""`), yet `ForDirectory` returns the default `D` with the used-default flag
set — not the profile of a deepest matching binding.  So the claim fails as
stated for binding sets containing empty-string profiles. -/
theorem c1_deepest_first_cex :
    forDirectory ⟨none, none⟩ (strL ("/a/b/c"))
        [⟨strL ("/a"), strL ("P")⟩, ⟨strL ("/a/b"), []⟩] (strL ("D"))
      = some ⟨strL ("D"), [], true⟩ ∧
    firstDeepest (matchingBindings ⟨none, none⟩ (strL ("/a/b/c"))
        [⟨strL ("/a"), strL ("P")⟩, ⟨strL ("/a/b"), []⟩])
      = some (⟨strL ("/a/b"), []⟩, strL ("/a/b")) ∧
    strL ("D") ≠ [] := by
  refine ⟨by decide, by decide, by decide⟩

/-- C6: when the query directory expands and no binding matches it,
`ForDirectory` does not fail: it returns the supplied default profile with
the used-default flag exactly when that default is non-empty, and the empty
profile with the flag false otherwise (with an empty matched path either
way). -/
theorem c6_no_match_default (env : Env) (dir : Str) (bs : List Binding)
    (defaultProfile : Str) (expanded : Str)
    (hdir : expandPath env dir = some expanded)
    (hnm : ∀ b ∈ bs, ∀ bp, expandPath env b.path = some bp → isSubpath expanded bp = false) :
    forDirectory env dir bs defaultProfile
      = some ⟨defaultProfile, [], decide (defaultProfile ≠ [])⟩ := by
  have hmb : matchingBindings env expanded bs = [] := by
    unfold matchingBindings
    induction bs with
    | nil => rfl
    | cons b bs ih =>
      rw [List.filterMap_cons]
      have hb : matchCandidate env expanded b = none := by
        unfold matchCandidate
        cases hbp : expandPath env b.path with
        | none => rfl
        | some bp => simp [hnm b (List.mem_cons_self _ _) bp hbp]
      rw [hb]
      exact ih fun b' hb' => hnm b' (List.mem_cons_of_mem _ hb')
  rw [forDirectory_eq_stateOf env dir bs defaultProfile expanded hdir, hmb]
  simp [firstDeepest, stateOf]

/-- C6 witness: the spec's empty-default property at a concrete directory
with no bindings and no default, and with default `D`. -/
theorem c6_no_match_default_witness :
    expandPath ⟨none, none⟩ (strL ("/some/random/dir")) = some (strL ("/some/random/dir")) ∧
    forDirectory ⟨none, none⟩ (strL ("/some/random/dir")) [] [] = some ⟨[], [], false⟩ ∧
    forDirectory ⟨none, none⟩ (strL ("/some/random/dir")) [] (strL ("D"))
      = some ⟨strL ("D"), [], true⟩ :=
  ⟨by decide,
   c6_no_match_default ⟨none, none⟩ (strL ("/some/random/dir")) [] []
     (strL ("/some/random/dir")) (by decide) (by intro b hb; cases hb),
   c6_no_match_default ⟨none, none⟩ (strL ("/some/random/dir")) [] (strL ("D"))
     (strL ("/some/random/dir")) (by decide) (by intro b hb; cases hb)⟩

/-- C9: when every matching binding carries the empty profile name,
`ForDirectory` behaves exactly as if nothing had matched: it returns the
default profile (used-default flag set exactly when the default is
non-empty) and an empty matched path. -/
theorem c9_empty_profile_as_no_match (env : Env) (dir : Str) (bs : List Binding)
    (defaultProfile : Str) (expanded : Str)
    (hdir : expandPath env dir = some expanded)
    (hemp : ∀ b ∈ bs, ∀ bp, expandPath env b.path = some bp →
      isSubpath expanded bp = true → b.profile = []) :
    forDirectory env dir bs defaultProfile
      = some ⟨defaultProfile, [], decide (defaultProfile ≠ [])⟩ := by
  rw [forDirectory_eq_stateOf env dir bs defaultProfile expanded hdir]
  cases hfd : firstDeepest (matchingBindings env expanded bs) with
  | none => simp [stateOf]
  | some x =>
    have hx := firstDeepest_mem hfd
    rw [matchingBindings, List.mem_filterMap] at hx
    obtain ⟨b, hb, hmc⟩ := hx
    rw [matchCandidate_eq_some] at hmc
    obtain ⟨bp, hbp, hs, rfl⟩ := hmc
    have hprof : b.profile = [] := hemp b hb bp hbp hs
    simp [stateOf, hprof]

/-!  C3: `isSubpath` against the component-hierarchy reading of matching. -/

lemma mem_splitOn_not_mem {α : Type} [DecidableEq α] (x : α) :
    ∀ (l : List α) (g : List α), g ∈ l.splitOn x → x ∉ g := by
  intro l
  induction l with
  | nil =>
    intro g hg
    simp only [List.splitOn_nil, List.mem_singleton] at hg
    subst hg
    simp
  | cons a l ih =>
    intro g hg
    by_cases hax : a = x
    · subst hax
      simp only [List.splitOn, List.splitOnP_cons, beq_self_eq_true, if_true] at hg
      rcases List.mem_cons.mp hg with h | h
      · subst h; simp
      · exact ih g h
    · simp only [List.splitOn, List.splitOnP_cons, beq_iff_eq, hax, if_false] at hg
      cases hsp : (l.splitOn x) with
      | nil => exact absurd hsp (List.splitOnP_ne_nil _ l)
      | cons h0 t =>
        simp only [List.splitOn] at hsp
        rw [hsp] at hg
        simp only [List.modifyHead] at hg
        rcases List.mem_cons.mp hg with h | h
        · subst h
          intro hx
          rcases List.mem_cons.mp hx with h | h
          · exact hax h.symm
          · exact ih h0 (by rw [List.splitOn, hsp]; exact List.mem_cons_self _ _) h
        · exact ih g (by rw [List.splitOn, hsp]; exact List.mem_cons_of_mem _ h)

lemma splitOn_sep_cons (l : Str) : ('/' :: l).splitOn '/' = [] :: l.splitOn '/' := by
  simp [List.splitOn, List.splitOnP_cons]

lemma cleanComps_nil (rooted : Bool) (acc : List Str) :
    cleanComps rooted acc [] = acc.reverse := rfl

lemma cleanComps_cons (rooted : Bool) (acc : List Str) (c : Str) (rest : List Str) :
    cleanComps rooted acc (c :: rest)
      = (if c = [] ∨ c = ['.'] then cleanComps rooted acc rest
         else if c = ['.', '.'] then cleanComps rooted (dotdotStep rooted acc) rest
         else cleanComps rooted (c :: acc) rest) := rfl

lemma cleanComps_keep (rooted : Bool) :
    ∀ (cs : List Str) (acc : List Str), (∀ c ∈ cs, validComp c) →
      cleanComps rooted acc cs = acc.reverse ++ cs := by
  intro cs
  induction cs with
  | nil => intro acc _; simp [cleanComps_nil]
  | cons c cs ih =>
    intro acc hv
    obtain ⟨h1, h2, h3, _⟩ := hv c (List.mem_cons_self _ _)
    rw [cleanComps_cons]
    rw [if_neg (by simp [h1, h2]), if_neg h3]
    rw [ih (c :: acc) (fun c' hc' => hv c' (List.mem_cons_of_mem _ hc'))]
    simp

lemma inter_nil : List.intercalate (['/'] : Str) ([] : List Str) = [] := rfl

lemma inter_single (a : Str) : List.intercalate ['/'] [a] = a := by
  simp [List.intercalate]

lemma inter_cons2 (a b : Str) (l : List Str) :
    List.intercalate ['/'] (a :: b :: l) = a ++ '/' :: List.intercalate ['/'] (b :: l) := by
  simp [List.intercalate]

lemma startsWith_slash (t : Str) : startsWith ('/' :: t) ['/'] = true := by
  simp [startsWith, List.isPrefixOf]

lemma clean_renderAbs (cs : List Str) (h : ∀ c ∈ cs, validComp c) :
    clean (renderAbs cs) = renderAbs cs := by
  unfold renderAbs clean
  rw [if_neg (by simp)]
  simp only [startsWith_slash, splitOn_sep_cons]
  cases cs with
  | nil =>
    simp only [inter_nil, List.splitOn_nil]
    rfl
  | cons c cs =>
    have hns : (List.intercalate ['/'] (c :: cs)).splitOn '/' = c :: cs := by
      have := List.splitOn_intercalate (c :: cs) '/'
        (fun l hl => (h l hl).2.2.2) (by simp)
      simpa using this
    rw [hns]
    have hstep : cleanComps true [] ([] :: c :: cs) = cleanComps true [] (c :: cs) := by
      rw [cleanComps_cons, if_pos (Or.inl rfl)]
    rw [hstep, cleanComps_keep true (c :: cs) [] h]
    simp

lemma slash_notMem_of_valid {c : Str} (h : validComp c) : '/' ∉ c := h.2.2.2

lemma slashfree_sep_isPrefix {p c t u : Str} (hp : '/' ∉ p) (hc : '/' ∉ c) :
    ((p ++ '/' :: t) <+: (c ++ '/' :: u)) ↔ p = c ∧ t <+: u := by
  induction p generalizing c with
  | nil =>
    cases c with
    | nil => simp
    | cons x c' =>
      simp only [List.nil_append, List.cons_append, List.cons_prefix_cons]
      constructor
      · rintro ⟨rfl, -⟩
        exact absurd (List.mem_cons_self _ _) hc
      · rintro ⟨h, -⟩
        exact absurd h (by simp)
  | cons y p' ih =>
    cases c with
    | nil =>
      simp only [List.cons_append, List.nil_append, List.cons_prefix_cons]
      constructor
      · rintro ⟨rfl, -⟩
        exact absurd (List.mem_cons_self _ _) hp
      · rintro ⟨h, -⟩
        exact absurd h (by simp)
    | cons x c' =>
      simp only [List.cons_append, List.cons_prefix_cons]
      have hp' : '/' ∉ p' := fun h => hp (List.mem_cons_of_mem _ h)
      have hc' : '/' ∉ c' := fun h => hc (List.mem_cons_of_mem _ h)
      rw [ih hp' hc']
      constructor
      · rintro ⟨rfl, rfl, ht⟩
        exact ⟨rfl, ht⟩
      · rintro ⟨h, ht⟩
        injection h with h1 h2
        exact ⟨h1, h2, ht⟩

lemma not_isPrefix_of_slash_free {l c : Str} (hl : '/' ∈ l) (hc : '/' ∉ c) :
    ¬ l <+: c := fun h => hc (h.subset hl)

lemma inter_sep_isPrefix_iff :
    ∀ (pcs ccs : List Str), (∀ c ∈ pcs, validComp c) → (∀ c ∈ ccs, validComp c) →
      pcs ≠ [] →
      ((List.intercalate ['/'] pcs ++ ['/']) <+: List.intercalate ['/'] ccs ↔
        pcs <+: ccs ∧ pcs ≠ ccs) := by
  intro pcs
  induction pcs with
  | nil => intro ccs _ _ hne; exact absurd rfl hne
  | cons p pcs' ih =>
    intro ccs hp hc _
    have hpv := hp p (List.mem_cons_self _ _)
    cases ccs with
    | nil =>
      simp only [inter_nil]
      constructor
      · intro h
        have := List.prefix_nil.mp h
        exact absurd this (by simp)
      · rintro ⟨h, -⟩
        have := List.prefix_nil.mp h
        exact absurd this (by simp)
    | cons c ccs' =>
      have hcv := hc c (List.mem_cons_self _ _)
      cases pcs' with
      | nil =>
        cases ccs' with
        | nil =>
          rw [inter_single, inter_single]
          constructor
          · intro h
            exact absurd h (not_isPrefix_of_slash_free (by simp)
              (slash_notMem_of_valid hcv))
          · rintro ⟨h, hne2⟩
            rcases (List.cons_prefix_cons.mp h) with ⟨rfl, h2⟩
            have := List.prefix_nil.mp h2
            exact absurd (by rw [this]) hne2
        | cons c2 ccs'' =>
          rw [inter_single, inter_cons2]
          have h0 : (p ++ ['/'] : Str) = p ++ '/' :: [] := rfl
          rw [h0, slashfree_sep_isPrefix (slash_notMem_of_valid hpv)
            (slash_notMem_of_valid hcv)]
          constructor
          · rintro ⟨rfl, -⟩
            exact ⟨by simp [List.cons_prefix_cons], by simp⟩
          · rintro ⟨h, -⟩
            rcases List.cons_prefix_cons.mp h with ⟨rfl, -⟩
            exact ⟨rfl, by simp⟩
      | cons p2 pcs'' =>
        rw [inter_cons2]
        cases ccs' with
        | nil =>
          rw [inter_single]
          constructor
          · intro h
            have hmem : '/' ∈ (p ++ '/' :: List.intercalate ['/'] (p2 :: pcs'')) ++ ['/'] := by
              simp
            exact absurd h (not_isPrefix_of_slash_free hmem (slash_notMem_of_valid hcv))
          · rintro ⟨h, -⟩
            rcases List.cons_prefix_cons.mp h with ⟨-, h2⟩
            have := List.prefix_nil.mp h2
            exact absurd this (by simp)
        | cons c2 ccs'' =>
          rw [inter_cons2]
          have hassoc : ((p ++ '/' :: List.intercalate ['/'] (p2 :: pcs'')) ++ ['/'] : Str)
              = p ++ '/' :: (List.intercalate ['/'] (p2 :: pcs'') ++ ['/']) := by
            simp
          rw [hassoc, slashfree_sep_isPrefix (slash_notMem_of_valid hpv)
            (slash_notMem_of_valid hcv)]
          have hp' : ∀ c' ∈ p2 :: pcs'', validComp c' :=
            fun c' hc' => hp c' (List.mem_cons_of_mem _ hc')
          have hc' : ∀ c' ∈ c2 :: ccs'', validComp c' :=
            fun c' hcc => hc c' (List.mem_cons_of_mem _ hcc)
          rw [ih (c2 :: ccs'') hp' hc' (by simp)]
          constructor
          · rintro ⟨rfl, h2, h3⟩
            refine ⟨List.cons_prefix_cons.mpr ⟨rfl, h2⟩, ?_⟩
            intro hcontra
            injection hcontra with h4 h5
            exact h3 h5
          · rintro ⟨h1, h2⟩
            rcases List.cons_prefix_cons.mp h1 with ⟨rfl, h3⟩
            refine ⟨rfl, h3, ?_⟩
            intro hcontra
            exact h2 (by rw [hcontra])

lemma renderAbs_inj {pcs ccs : List Str} (hp : ∀ c ∈ pcs, validComp c)
    (hc : ∀ c ∈ ccs, validComp c) (h : renderAbs ccs = renderAbs pcs) : ccs = pcs := by
  unfold renderAbs at h
  injection h with h1 h2
  cases ccs with
  | nil =>
    cases pcs with
    | nil => rfl
    | cons p pcs' =>
      exfalso
      have hpv := hp p (List.mem_cons_self _ _)
      cases pcs' with
      | nil =>
        rw [inter_nil, inter_single] at h2
        exact hpv.1 h2.symm
      | cons p2 pcs'' =>
        rw [inter_nil, inter_cons2] at h2
        rcases List.append_eq_nil.mp h2.symm with ⟨h3, h4⟩
        exact absurd h4 (by simp)
  | cons c ccs' =>
    cases pcs with
    | nil =>
      exfalso
      have hcv := hc c (List.mem_cons_self _ _)
      cases ccs' with
      | nil =>
        rw [inter_nil, inter_single] at h2
        exact hcv.1 h2
      | cons c2 ccs'' =>
        rw [inter_nil, inter_cons2] at h2
        rcases List.append_eq_nil.mp h2 with ⟨h3, h4⟩
        exact absurd h4 (by simp)
    | cons p pcs' =>
      have hsc : (List.intercalate ['/'] (c :: ccs')).splitOn '/' = c :: ccs' := by
        simpa using List.splitOn_intercalate (c :: ccs') '/'
          (fun l hl => (hc l hl).2.2.2) (by simp)
      have hsp : (List.intercalate ['/'] (p :: pcs')).splitOn '/' = p :: pcs' := by
        simpa using List.splitOn_intercalate (p :: pcs') '/'
          (fun l hl => (hp l hl).2.2.2) (by simp)
      calc c :: ccs' = (List.intercalate ['/'] (c :: ccs')).splitOn '/' := hsc.symm
        _ = (List.intercalate ['/'] (p :: pcs')).splitOn '/' := by rw [h2]
        _ = p :: pcs' := hsp

/-- C3 (amended): for normalized absolute paths rendered from well-formed
component lists, `isSubpath child parent` holds exactly when the parent's
component list is a prefix of the child's (equality or strict descent by
whole components, never by raw string prefix) — for every parent other than
the filesystem root `/`; a root binding matches only the root itself (see
the counterexample). -/
theorem c3_component_match (pcs ccs : List Str) (hp : ∀ c ∈ pcs, validComp c)
    (hc : ∀ c ∈ ccs, validComp c) (hne : pcs ≠ []) :
    isSubpath (renderAbs ccs) (renderAbs pcs) = true ↔ pcs <+: ccs := by
  unfold isSubpath
  simp only [clean_renderAbs ccs hc, clean_renderAbs pcs hp]
  rw [Bool.or_eq_true, beq_iff_eq]
  have hsw : startsWith (renderAbs ccs) (renderAbs pcs ++ ['/']) = true ↔
      (renderAbs pcs ++ ['/']) <+: renderAbs ccs := by
    simp [startsWith, List.isPrefixOf_iff_prefix]
  rw [hsw]
  have hrw : (renderAbs pcs ++ ['/'] : Str)
      = '/' :: (List.intercalate ['/'] pcs ++ ['/']) := by
    simp [renderAbs]
  rw [hrw]
  unfold renderAbs
  rw [List.cons_prefix_cons]
  constructor
  · rintro (heq | ⟨-, h2⟩)
    · have : ccs = pcs := renderAbs_inj hp hc (by unfold renderAbs; rw [heq])
      rw [this]
    · exact ((inter_sep_isPrefix_iff pcs ccs hp hc hne).mp h2).1
  · intro h
    by_cases heq : pcs = ccs
    · left
      rw [heq]
    · right
      exact ⟨rfl, (inter_sep_isPrefix_iff pcs ccs hp hc hne).mpr ⟨h, heq⟩⟩

/-- C3 counterexample: the root binding `/` (empty component list).  The
query `/a` is a strict descendant of `/` by whole path components, yet
`isSubpath "/a" "/"` is false, because the code's prefix check appends a
separator to the parent and `"/a"` does not start with `"//"`.  So the
claimed equivalence fails as stated when the binding path is the root. -/
theorem c3_component_match_cex :
    isSubpath (strL ("/a")) (strL ("/")) = false ∧
    renderAbs [] = strL ("/") ∧
    renderAbs [strL ("a")] = strL ("/a") ∧
    (([] : List Str) <+: [strL ("a")]) ∧
    strL ("/a") ≠ strL ("/") := by
  refine ⟨by decide, by decide, by decide, ⟨[strL ("a")], rfl⟩, by decide⟩

/-- C3 witness: the spec's own instances — `/a/b/x` matches binding `/a/b`
and does not match binding `/a/bc`. -/
theorem c3_component_match_witness :
    (∀ c ∈ [strL ("a"), strL ("b")], validComp c) ∧
    (isSubpath (renderAbs [strL ("a"), strL ("b"), strL ("x")])
        (renderAbs [strL ("a"), strL ("b")]) = true ↔
      [strL ("a"), strL ("b")] <+: [strL ("a"), strL ("b"), strL ("x")]) ∧
    (isSubpath (renderAbs [strL ("a"), strL ("b"), strL ("x")])
        (renderAbs [strL ("bc")]) = true ↔
      [strL ("bc")] <+: [strL ("a"), strL ("b"), strL ("x")]) :=
  ⟨by decide,
   c3_component_match [strL ("a"), strL ("b")] [strL ("a"), strL ("b"), strL ("x")]
     (by decide) (by decide) (by decide),
   c3_component_match [strL ("bc")] [strL ("a"), strL ("b"), strL ("x")]
     (by decide) (by decide) (by decide)⟩

/-!  Idempotence of `clean` on rooted paths and stability of `expandPath` on
its own output, needed for the Binding Store invariant. -/

lemma startsWith_slash_iff (s : Str) :
    startsWith s ['/'] = true ↔ ∃ t, s = '/' :: t := by
  cases s with
  | nil => simp [startsWith, List.isPrefixOf]
  | cons a t =>
    simp only [startsWith, List.isPrefixOf, List.isPrefixOf_nil_left, Bool.and_true,
      beq_iff_eq]
    constructor
    · rintro rfl
      exact ⟨t, rfl⟩
    · rintro ⟨t', ht⟩
      injection ht with h1 h2
      rw [h1]

lemma cleanComps_valid_rooted :
    ∀ (cs : List Str) (acc : List Str), (∀ c ∈ cs, '/' ∉ c) →
      (∀ a ∈ acc, validComp a) → ∀ x ∈ cleanComps true acc cs, validComp x := by
  intro cs
  induction cs with
  | nil =>
    intro acc _ hacc x hx
    rw [cleanComps_nil] at hx
    exact hacc x (List.mem_reverse.mp hx)
  | cons c cs ih =>
    intro acc hcs hacc x hx
    have hcs' : ∀ c' ∈ cs, '/' ∉ c' := fun c' h => hcs c' (List.mem_cons_of_mem _ h)
    rw [cleanComps_cons] at hx
    by_cases h1 : c = [] ∨ c = ['.']
    · rw [if_pos h1] at hx
      exact ih acc hcs' hacc x hx
    · rw [if_neg h1] at hx
      by_cases h2 : c = ['.', '.']
      · rw [if_pos h2] at hx
        refine ih (dotdotStep true acc) hcs' ?_ x hx
        cases acc with
        | nil =>
          intro a ha
          simp only [dotdotStep, if_pos rfl] at ha
          exact absurd ha (by simp)
        | cons a0 acc' =>
          have hv0 := hacc a0 (List.mem_cons_self _ _)
          intro a ha
          simp only [dotdotStep, if_neg hv0.2.2.1] at ha
          exact hacc a (List.mem_cons_of_mem _ ha)
      · rw [if_neg h2] at hx
        refine ih (c :: acc) hcs' ?_ x hx
        intro a ha
        rcases List.mem_cons.mp ha with h | h
        · push_neg at h1
          rw [h]
          exact ⟨h1.1, h1.2, h2, hcs c (List.mem_cons_self _ _)⟩
        · exact hacc a h

lemma clean_rooted_eq (p : Str) (hroot : startsWith p ['/'] = true) :
    ∃ cs, (∀ c ∈ cs, validComp c) ∧ clean p = renderAbs cs := by
  obtain ⟨t, rfl⟩ := (startsWith_slash_iff p).mp hroot
  refine ⟨cleanComps true [] (('/' :: t).splitOn '/'), ?_, ?_⟩
  · exact cleanComps_valid_rooted _ [] (mem_splitOn_not_mem '/' _) (by simp)
  · unfold clean
    rw [if_neg (by simp)]
    simp only [startsWith_slash]
    rfl

lemma clean_clean_rooted (p : Str) (h : startsWith p ['/'] = true) :
    clean (clean p) = clean p := by
  obtain ⟨cs, hv, heq⟩ := clean_rooted_eq p h
  rw [heq, clean_renderAbs cs hv]

lemma clean_rooted_startsWith (p : Str) (h : startsWith p ['/'] = true) :
    startsWith (clean p) ['/'] = true := by
  obtain ⟨cs, hv, heq⟩ := clean_rooted_eq p h
  rw [heq]
  exact startsWith_slash _

lemma startsWith_slash_append {s : Str} (r : Str) (h : startsWith s ['/'] = true) :
    startsWith (s ++ r) ['/'] = true := by
  obtain ⟨t, rfl⟩ := (startsWith_slash_iff s).mp h
  exact startsWith_slash _

lemma goAbs_rooted {env : Env} {p v : Str}
    (hcwd : ∀ w, env.cwd = some w → startsWith w ['/'] = true)
    (h : goAbs env p = some v) : startsWith v ['/'] = true := by
  unfold goAbs at h
  by_cases hp : startsWith p ['/'] = true
  · rw [if_pos hp, Option.some_inj] at h
    rw [← h]
    exact clean_rooted_startsWith p hp
  · rw [if_neg hp] at h
    cases hw : env.cwd with
    | none => rw [hw] at h; exact absurd h (by simp)
    | some wd =>
      rw [hw, Option.some_inj] at h
      rw [← h]
      exact clean_rooted_startsWith _ (startsWith_slash_append _ (hcwd wd hw))

lemma expandPath_tilde_eq {env : Env} {p : Str} {hm : Str}
    (h1 : (startsWith p (strL ("~/")) || p == ['~']) = true)
    (hh : env.home = some hm) :
    expandPath env p = (goAbs env (clean (hm ++ '/' :: p.drop 1))).map clean := by
  unfold expandPath
  rw [if_pos h1, hh]

lemma expandPath_plain_eq {env : Env} {p : Str}
    (h1 : (startsWith p (strL ("~/")) || p == ['~']) = false) :
    expandPath env p = (goAbs env p).map clean := by
  unfold expandPath
  rw [h1]
  rfl

lemma expand_rooted {env : Env} {p v : Str}
    (hcwd : ∀ w, env.cwd = some w → startsWith w ['/'] = true)
    (h : expandPath env p = some v) :
    startsWith v ['/'] = true ∧ clean v = v := by
  have key : ∀ q a, goAbs env q = some a → v = clean a →
      startsWith v ['/'] = true ∧ clean v = v := by
    intro q a hq hv
    have ha : startsWith a ['/'] = true := goAbs_rooted hcwd hq
    constructor
    · rw [hv]; exact clean_rooted_startsWith a ha
    · rw [hv]; exact clean_clean_rooted a ha
  cases h1 : (startsWith p (strL ("~/")) || p == ['~']) with
  | true =>
    cases hh : env.home with
    | none =>
      unfold expandPath at h
      rw [if_pos h1, hh] at h
      have h2 : (none : Option Str) = some v := h
      exact absurd h2 (by simp)
    | some hm =>
      rw [expandPath_tilde_eq h1 hh] at h
      cases hg : goAbs env (clean (hm ++ '/' :: p.drop 1)) with
      | none => rw [hg] at h; exact absurd h (by simp)
      | some a =>
        rw [hg] at h
        exact key _ a hg (Option.some_inj.mp h).symm
  | false =>
    rw [expandPath_plain_eq h1] at h
    cases hg : goAbs env p with
    | none => rw [hg] at h; exact absurd h (by simp)
    | some a =>
      rw [hg] at h
      exact key _ a hg (Option.some_inj.mp h).symm

lemma rooted_not_tilde (t : Str) :
    (startsWith ('/' :: t) (strL ("~/")) || (('/' :: t : Str) == ['~'])) = false := by
  have h1 : startsWith ('/' :: t) (strL ("~/")) = false := by
    rw [Bool.eq_false_iff]
    intro hcontra
    rw [startsWith] at hcontra
    rw [ List.isPrefixOf_iff_prefix] at hcontra
    have hlit : strL ("~/") = '~' :: ['/'] := rfl
    rw [hlit] at hcontra
    rcases List.cons_prefix_cons.mp hcontra with ⟨heq, h2⟩
    exact absurd heq (by decide)
  have h2 : (('/' :: t : Str) == ['~']) = false := by
    rw [beq_eq_false_iff_ne]
    intro hcontra
    injection hcontra with hh ht
    exact absurd hh (by decide)
  rw [h1, h2]
  rfl

lemma expand_expand {env : Env} {p v : Str}
    (hcwd : ∀ w, env.cwd = some w → startsWith w ['/'] = true)
    (h : expandPath env p = some v) : expandPath env v = some v := by
  obtain ⟨hr, hcl⟩ := expand_rooted hcwd h
  obtain ⟨t, rfl⟩ := (startsWith_slash_iff v).mp hr
  rw [expandPath_plain_eq (rooted_not_tilde t)]
  unfold goAbs
  rw [if_pos (startsWith_slash t)]
  show some (clean (clean ('/' :: t))) = some ('/' :: t)
  rw [hcl, hcl]

/-!  C4: replace-in-place semantics of `AddBinding` and preservation of the
one-binding-per-normalized-path invariant. -/

lemma addBinding_some_eq {env : Env} {q v : Str} (bs : List Binding) (pr : Str)
    (h : expandPath env q = some v) :
    addBinding env bs q pr = some (addReplace env v pr bs) := by
  unfold addBinding
  rw [h]

lemma addBinding_none_eq {env : Env} {q : Str} (bs : List Binding) (pr : Str)
    (h : expandPath env q = none) : addBinding env bs q pr = none := by
  unfold addBinding
  rw [h]

lemma addReplace_cons_eq (env : Env) (v pr : Str) (b : Binding) (rest : List Binding) :
    addReplace env v pr (b :: rest)
      = (match expandPath env b.path with
         | none => b :: addReplace env v pr rest
         | some be =>
           if be = v then { b with profile := pr } :: rest
           else b :: addReplace env v pr rest) := rfl

lemma addReplace_cons_none {env : Env} {b : Binding} (v pr : Str) (rest : List Binding)
    (h : expandPath env b.path = none) :
    addReplace env v pr (b :: rest) = b :: addReplace env v pr rest := by
  rw [addReplace_cons_eq, h]

lemma addReplace_cons_some {env : Env} {b : Binding} {be : Str} (v pr : Str)
    (rest : List Binding) (h : expandPath env b.path = some be) :
    addReplace env v pr (b :: rest)
      = if be = v then { b with profile := pr } :: rest
        else b :: addReplace env v pr rest := by
  rw [addReplace_cons_eq, h]

lemma addReplace_first_match (env : Env) (v pr : Str) :
    ∀ (bs₁ : List Binding) (b : Binding) (bs₂ : List Binding),
      expandPath env b.path = some v →
      (∀ b' ∈ bs₁, expandPath env b'.path ≠ some v) →
      addReplace env v pr (bs₁ ++ b :: bs₂) = bs₁ ++ { b with profile := pr } :: bs₂ := by
  intro bs₁
  induction bs₁ with
  | nil =>
    intro b bs₂ hb _
    simp only [List.nil_append]
    rw [addReplace_cons_some v pr bs₂ hb, if_pos rfl]
  | cons b' bs₁ ih =>
    intro b bs₂ hb hfirst
    simp only [List.cons_append]
    cases hb' : expandPath env b'.path with
    | none =>
      rw [addReplace_cons_none v pr _ hb']
      rw [ih b bs₂ hb fun x hx => hfirst x (List.mem_cons_of_mem _ hx)]
    | some be =>
      have hne : be ≠ v := by
        intro hcontra
        exact hfirst b' (List.mem_cons_self _ _) (by rw [hb', hcontra])
      rw [addReplace_cons_some v pr _ hb', if_neg hne]
      rw [ih b bs₂ hb fun x hx => hfirst x (List.mem_cons_of_mem _ hx)]

lemma addReplace_cases (env : Env) (v pr : Str) :
    ∀ bs : List Binding,
      (∃ bs₁ b bs₂, bs = bs₁ ++ b :: bs₂ ∧ expandPath env b.path = some v ∧
        (∀ b' ∈ bs₁, expandPath env b'.path ≠ some v) ∧
        addReplace env v pr bs = bs₁ ++ { b with profile := pr } :: bs₂) ∨
      ((∀ b ∈ bs, expandPath env b.path ≠ some v) ∧
        addReplace env v pr bs = bs ++ [⟨v, pr⟩]) := by
  intro bs
  induction bs with
  | nil => exact Or.inr ⟨by simp, rfl⟩
  | cons b rest ih =>
    by_cases hb : expandPath env b.path = some v
    · left
      refine ⟨[], b, rest, by simp, hb, by simp, ?_⟩
      rw [addReplace_cons_some v pr rest hb, if_pos rfl]
      simp
    · have hbstep : addReplace env v pr (b :: rest) = b :: addReplace env v pr rest := by
        cases hbe : expandPath env b.path with
        | none => exact addReplace_cons_none v pr rest hbe
        | some be =>
          have hne : be ≠ v := fun hcontra => hb (by rw [hbe, hcontra])
          rw [addReplace_cons_some v pr rest hbe, if_neg hne]
      rcases ih with ⟨bs₁, b0, bs₂, heq, hb0, hfirst, hres⟩ | ⟨hall, hres⟩
      · left
        refine ⟨b :: bs₁, b0, bs₂, by rw [heq]; simp, hb0, ?_, ?_⟩
        · intro b' hb'
          rcases List.mem_cons.mp hb' with h | h
          · subst h; exact hb
          · exact hfirst b' h
        · rw [hbstep, hres]
          simp
      · right
        refine ⟨?_, ?_⟩
        · intro b' hb'
          rcases List.mem_cons.mp hb' with h | h
          · subst h; exact hb
          · exact hall b' h
        · rw [hbstep, hres]
          simp

/-- C4: adding a binding for a path whose normalized form is already bound
replaces the profile of the first such entry in place — same entry count,
same positions, same paths, only that entry's profile changed — and
`AddBinding` (in any outcome) preserves the invariant that no two stored
bindings share a normalized path. -/
theorem c4_add_binding_replace (env : Env) (q v pr : Str)
    (hq : expandPath env q = some v)
    (hcwd : ∀ w, env.cwd = some w → startsWith w ['/'] = true) :
    (∀ (bs₁ : List Binding) (b : Binding) (bs₂ : List Binding),
      expandPath env b.path = some v →
      (∀ b' ∈ bs₁, expandPath env b'.path ≠ some v) →
      addBinding env (bs₁ ++ b :: bs₂) q pr
        = some (bs₁ ++ { b with profile := pr } :: bs₂)) ∧
    (∀ bs bs', NodupNorm env bs → addBinding env bs q pr = some bs' →
      NodupNorm env bs') := by
  constructor
  · intro bs₁ b bs₂ hb hfirst
    rw [addBinding_some_eq _ pr hq, addReplace_first_match env v pr bs₁ b bs₂ hb hfirst]
  · intro bs bs' hnd hadd
    rw [addBinding_some_eq _ pr hq, Option.some_inj] at hadd
    rcases addReplace_cases env v pr bs with
      ⟨bs₁, b, bs₂, heq, hb, hfirst, hres⟩ | ⟨hall, hres⟩
    · rw [← hadd, hres]
      unfold NodupNorm at hnd ⊢
      have hmap : (bs₁ ++ { b with profile := pr } :: bs₂).map Binding.path
          = (bs₁ ++ b :: bs₂).map Binding.path := by
        simp
      rw [hmap, ← heq]
      exact hnd
    · rw [← hadd, hres]
      unfold NodupNorm at hnd ⊢
      rw [List.map_append, List.pairwise_append]
      refine ⟨hnd, by simp, ?_⟩
      intro p hp q' hq'
      simp only [List.map_cons, List.map_nil, List.mem_singleton] at hq'
      rw [hq']
      intro w hw
      have hvv : expandPath env v = some v := expand_expand hcwd hq
      intro hcontra
      rw [hvv, Option.some_inj] at hcontra
      subst hcontra
      obtain ⟨b0, hb0, rfl⟩ := List.mem_map.mp hp
      exact hall b0 hb0 hw

/-!  C10: bindings whose stored path fails to expand are transparently
skipped by every scan. -/

lemma forDirectory_none_eq {env : Env} {dir : Str} (bs : List Binding) (d : Str)
    (h : expandPath env dir = none) : forDirectory env dir bs d = none := by
  unfold forDirectory
  rw [h]

lemma removeBinding_some_eq {env : Env} {q v : Str} (bs : List Binding)
    (h : expandPath env q = some v) : removeBinding env bs q = removeScan env v bs := by
  unfold removeBinding
  rw [h]

lemma removeBinding_none_eq {env : Env} {q : Str} (bs : List Binding)
    (h : expandPath env q = none) : removeBinding env bs q = .error .expandFailed := by
  unfold removeBinding
  rw [h]

lemma findBinding_some_eq {env : Env} {q v : Str} (bs : List Binding)
    (h : expandPath env q = some v) : findBinding env bs q = findScan env v bs := by
  unfold findBinding
  rw [h]

lemma findBinding_none_eq {env : Env} {q : Str} (bs : List Binding)
    (h : expandPath env q = none) : findBinding env bs q = [] := by
  unfold findBinding
  rw [h]

lemma removeScan_cons_eq (env : Env) (v : Str) (b : Binding) (rest : List Binding) :
    removeScan env v (b :: rest)
      = (match expandPath env b.path with
         | none => (removeScan env v rest).map (fun r => b :: r)
         | some be =>
           if be = v then .ok rest
           else (removeScan env v rest).map (fun r => b :: r)) := rfl

lemma removeScan_cons_none {env : Env} {v : Str} {b : Binding} (rest : List Binding)
    (h : expandPath env b.path = none) :
    removeScan env v (b :: rest) = (removeScan env v rest).map (fun r => b :: r) := by
  rw [removeScan_cons_eq, h]

lemma removeScan_cons_some {env : Env} {v : Str} {b : Binding} {be : Str}
    (rest : List Binding) (h : expandPath env b.path = some be) :
    removeScan env v (b :: rest)
      = if be = v then .ok rest else (removeScan env v rest).map (fun r => b :: r) := by
  rw [removeScan_cons_eq, h]

lemma findScan_cons_eq (env : Env) (v : Str) (b : Binding) (rest : List Binding) :
    findScan env v (b :: rest)
      = (match expandPath env b.path with
         | none => findScan env v rest
         | some be => if be = v then b.profile else findScan env v rest) := rfl

lemma findScan_cons_none {env : Env} {v : Str} {b : Binding} (rest : List Binding)
    (h : expandPath env b.path = none) :
    findScan env v (b :: rest) = findScan env v rest := by
  rw [findScan_cons_eq, h]

lemma findScan_cons_some {env : Env} {v : Str} {b : Binding} {be : Str}
    (rest : List Binding) (h : expandPath env b.path = some be) :
    findScan env v (b :: rest)
      = if be = v then b.profile else findScan env v rest := by
  rw [findScan_cons_eq, h]

lemma insertIdx_length_append {α : Type} (l₁ l₂ : List α) (a : α) :
    (l₁ ++ l₂).insertIdx l₁.length a = l₁ ++ a :: l₂ := by
  induction l₁ with
  | nil => simp
  | cons x l₁ ih =>
    simp only [List.cons_append, List.length_cons, List.insertIdx_succ_cons, ih]

lemma matchingBindings_skip {env : Env} {b : Binding} (e : Str)
    (bs₁ bs₂ : List Binding) (hb : expandPath env b.path = none) :
    matchingBindings env e (bs₁ ++ b :: bs₂) = matchingBindings env e (bs₁ ++ bs₂) := by
  simp [matchingBindings, List.filterMap_append, List.filterMap_cons,
    matchCandidate_none_eq e hb]

lemma addReplace_skip {env : Env} {b : Binding} (v pr : Str)
    (hb : expandPath env b.path = none) :
    ∀ bs₁ bs₂ : List Binding,
      addReplace env v pr (bs₁ ++ b :: bs₂)
        = (addReplace env v pr (bs₁ ++ bs₂)).insertIdx bs₁.length b := by
  intro bs₁
  induction bs₁ with
  | nil =>
    intro bs₂
    simp only [List.nil_append, List.length_nil]
    rw [addReplace_cons_none v pr bs₂ hb, List.insertIdx_zero]
  | cons b' bs₁ ih =>
    intro bs₂
    simp only [List.cons_append, List.length_cons]
    cases hbe : expandPath env b'.path with
    | none =>
      rw [addReplace_cons_none v pr _ hbe, addReplace_cons_none v pr _ hbe,
        List.insertIdx_succ_cons, ih bs₂]
    | some be =>
      rw [addReplace_cons_some v pr _ hbe, addReplace_cons_some v pr _ hbe]
      by_cases hbv : be = v
      · rw [if_pos hbv, if_pos hbv, List.insertIdx_succ_cons, insertIdx_length_append]
      · rw [if_neg hbv, if_neg hbv, List.insertIdx_succ_cons, ih bs₂]

lemma removeScan_skip {env : Env} {b : Binding} (v : Str)
    (hb : expandPath env b.path = none) :
    ∀ bs₁ bs₂ : List Binding,
      (∀ e, removeScan env v (bs₁ ++ b :: bs₂) = .error e ↔
        removeScan env v (bs₁ ++ bs₂) = .error e) ∧
      (∀ r, removeScan env v (bs₁ ++ b :: bs₂) = .ok r →
        ∃ r₁ r₂, r = r₁ ++ b :: r₂ ∧ removeScan env v (bs₁ ++ bs₂) = .ok (r₁ ++ r₂)) := by
  intro bs₁
  induction bs₁ with
  | nil =>
    intro bs₂
    simp only [List.nil_append]
    rw [removeScan_cons_none bs₂ hb]
    constructor
    · intro e
      cases hres : removeScan env v bs₂ with
      | ok r => simp [hres, Except.map]
      | error e' => simp [hres, Except.map]
    · intro r hr
      cases hres : removeScan env v bs₂ with
      | ok r0 =>
        rw [hres] at hr
        simp only [Except.map, Except.ok.injEq] at hr
        exact ⟨[], r0, by simp [← hr], by simp [hres]⟩
      | error e' =>
        rw [hres] at hr
        simp [Except.map] at hr
  | cons b' bs₁ ih =>
    intro bs₂
    simp only [List.cons_append]
    cases hbe : expandPath env b'.path with
    | none =>
      rw [removeScan_cons_none (bs₁ ++ b :: bs₂) hbe,
        removeScan_cons_none (bs₁ ++ bs₂) hbe]
      constructor
      · intro e
        cases hres : removeScan env v (bs₁ ++ b :: bs₂) with
        | ok r =>
          obtain ⟨r₁, r₂, hr, hres'⟩ := (ih bs₂).2 r hres
          simp [hres, hres', Except.map]
        | error e' =>
          have hres' : removeScan env v (bs₁ ++ bs₂) = .error e' := ((ih bs₂).1 e').mp hres
          simp [hres, hres', Except.map]
      · intro r hr
        cases hres : removeScan env v (bs₁ ++ b :: bs₂) with
        | ok r0 =>
          obtain ⟨r₁, r₂, hr0, hres'⟩ := (ih bs₂).2 r0 hres
          rw [hres] at hr
          simp only [Except.map, Except.ok.injEq] at hr
          refine ⟨b' :: r₁, r₂, ?_, ?_⟩
          · rw [← hr, hr0]
            simp
          · rw [hres']
            simp [Except.map]
        | error e' =>
          rw [hres] at hr
          simp [Except.map] at hr
    | some be =>
      rw [removeScan_cons_some (bs₁ ++ b :: bs₂) hbe,
        removeScan_cons_some (bs₁ ++ bs₂) hbe]
      by_cases hbv : be = v
      · rw [if_pos hbv, if_pos hbv]
        constructor
        · intro e
          simp
        · intro r hr
          simp only [Except.ok.injEq] at hr
          exact ⟨bs₁, bs₂, hr.symm, rfl⟩
      · rw [if_neg hbv, if_neg hbv]
        constructor
        · intro e
          cases hres : removeScan env v (bs₁ ++ b :: bs₂) with
          | ok r =>
            obtain ⟨r₁, r₂, hr, hres'⟩ := (ih bs₂).2 r hres
            simp [hres, hres', Except.map]
          | error e' =>
            have hres' : removeScan env v (bs₁ ++ bs₂) = .error e' := ((ih bs₂).1 e').mp hres
            simp [hres, hres', Except.map]
        · intro r hr
          cases hres : removeScan env v (bs₁ ++ b :: bs₂) with
          | ok r0 =>
            obtain ⟨r₁, r₂, hr0, hres'⟩ := (ih bs₂).2 r0 hres
            rw [hres] at hr
            simp only [Except.map, Except.ok.injEq] at hr
            refine ⟨b' :: r₁, r₂, ?_, ?_⟩
            · rw [← hr, hr0]
              simp
            · rw [hres']
              simp [Except.map]
          | error e' =>
            rw [hres] at hr
            simp [Except.map] at hr

lemma findScan_skip {env : Env} {b : Binding} (v : Str)
    (hb : expandPath env b.path = none) :
    ∀ bs₁ bs₂ : List Binding,
      findScan env v (bs₁ ++ b :: bs₂) = findScan env v (bs₁ ++ bs₂) := by
  intro bs₁
  induction bs₁ with
  | nil =>
    intro bs₂
    simp only [List.nil_append]
    rw [findScan_cons_none bs₂ hb]
  | cons b' bs₁ ih =>
    intro bs₂
    simp only [List.cons_append]
    cases hbe : expandPath env b'.path with
    | none =>
      rw [findScan_cons_none (bs₁ ++ b :: bs₂) hbe, findScan_cons_none (bs₁ ++ bs₂) hbe]
      exact ih bs₂
    | some be =>
      rw [findScan_cons_some (bs₁ ++ b :: bs₂) hbe, findScan_cons_some (bs₁ ++ bs₂) hbe]
      by_cases hbv : be = v
      · rw [if_pos hbv, if_pos hbv]
      · rw [if_neg hbv, if_neg hbv]
        exact ih bs₂

/-- C10: a stored binding whose path fails to expand is silently skipped:
`ForDirectory` resolves exactly as if it were absent; `AddBinding` produces
the same store with the dead binding left in place (never treating it as the
duplicate); `RemoveBinding` returns the same error as without it (so it can
only contribute to a not-found miss) and, on success, removes some other
entry and keeps the dead binding; `FindBinding` ignores it.  None of these
operations errors because of the dead binding; only failure to expand the
caller-supplied query path itself is reported (last conjunct). -/
theorem c10_unexpandable_binding_skipped (env : Env) (b : Binding)
    (hb : expandPath env b.path = none) :
    (∀ dir (bs₁ bs₂ : List Binding) (d : Str),
      forDirectory env dir (bs₁ ++ b :: bs₂) d = forDirectory env dir (bs₁ ++ bs₂) d) ∧
    (∀ q pr (bs₁ bs₂ : List Binding),
      addBinding env (bs₁ ++ b :: bs₂) q pr
        = (addBinding env (bs₁ ++ bs₂) q pr).map (fun l => l.insertIdx bs₁.length b)) ∧
    (∀ q (bs₁ bs₂ : List Binding) (e : RemoveErr),
      removeBinding env (bs₁ ++ b :: bs₂) q = .error e ↔
        removeBinding env (bs₁ ++ bs₂) q = .error e) ∧
    (∀ q (bs₁ bs₂ : List Binding) (r : List Binding),
      removeBinding env (bs₁ ++ b :: bs₂) q = .ok r →
        ∃ r₁ r₂, r = r₁ ++ b :: r₂ ∧ removeBinding env (bs₁ ++ bs₂) q = .ok (r₁ ++ r₂)) ∧
    (∀ q (bs₁ bs₂ : List Binding),
      findBinding env (bs₁ ++ b :: bs₂) q = findBinding env (bs₁ ++ bs₂) q) ∧
    (∀ q (bs : List Binding), expandPath env q = none →
      (∀ d, forDirectory env q bs d = none) ∧ (∀ pr, addBinding env bs q pr = none) ∧
      removeBinding env bs q = .error .expandFailed ∧ findBinding env bs q = []) := by
  refine ⟨?_, ?_, ?_, ?_, ?_, ?_⟩
  · intro dir bs₁ bs₂ d
    cases hdir : expandPath env dir with
    | none => rw [forDirectory_none_eq _ d hdir, forDirectory_none_eq _ d hdir]
    | some expanded =>
      rw [forDirectory_eq_stateOf env dir _ d expanded hdir,
        forDirectory_eq_stateOf env dir _ d expanded hdir,
        matchingBindings_skip expanded bs₁ bs₂ hb]
  · intro q pr bs₁ bs₂
    cases hq : expandPath env q with
    | none => rw [addBinding_none_eq _ pr hq, addBinding_none_eq _ pr hq]; rfl
    | some v =>
      rw [addBinding_some_eq _ pr hq, addBinding_some_eq _ pr hq]
      simp only [Option.map_some']
      rw [addReplace_skip v pr hb bs₁ bs₂]
  · intro q bs₁ bs₂ e
    cases hq : expandPath env q with
    | none => rw [removeBinding_none_eq _ hq, removeBinding_none_eq _ hq]
    | some v =>
      rw [removeBinding_some_eq _ hq, removeBinding_some_eq _ hq]
      exact (removeScan_skip v hb bs₁ bs₂).1 e
  · intro q bs₁ bs₂ r hr
    cases hq : expandPath env q with
    | none =>
      rw [removeBinding_none_eq _ hq] at hr
      exact absurd hr (by simp)
    | some v =>
      rw [removeBinding_some_eq _ hq] at hr
      obtain ⟨r₁, r₂, h1, h2⟩ := (removeScan_skip v hb bs₁ bs₂).2 r hr
      exact ⟨r₁, r₂, h1, by rw [removeBinding_some_eq _ hq, h2]⟩
  · intro q bs₁ bs₂
    cases hq : expandPath env q with
    | none => rw [findBinding_none_eq _ hq, findBinding_none_eq _ hq]
    | some v =>
      rw [findBinding_some_eq _ hq, findBinding_some_eq _ hq]
      exact findScan_skip v hb bs₁ bs₂
  · intro q bs hq
    exact ⟨fun d => forDirectory_none_eq bs d hq, fun pr => addBinding_none_eq bs pr hq,
      removeBinding_none_eq bs hq, findBinding_none_eq bs hq⟩

/-- C10 witness: with no home directory, a `~/x` binding is skipped by all
four operations, and a `~/q` query is the only propagated failure. -/
theorem c10_unexpandable_binding_skipped_witness :
    forDirectory ⟨none, none⟩ (strL ("/w/p"))
        [⟨strL ("/w"), strL ("W")⟩, ⟨strL ("~/x"), strL ("H")⟩] (strL ("D"))
      = forDirectory ⟨none, none⟩ (strL ("/w/p")) [⟨strL ("/w"), strL ("W")⟩] (strL ("D")) ∧
    removeBinding ⟨none, none⟩ [⟨strL ("~/x"), strL ("H")⟩] (strL ("/q"))
      = .error .notFound ∧
    removeBinding ⟨none, none⟩ [⟨strL ("~/x"), strL ("H")⟩] (strL ("~/q"))
      = .error .expandFailed :=
  ⟨(c10_unexpandable_binding_skipped ⟨none, none⟩ ⟨strL ("~/x"), strL ("H")⟩
      (by decide)).1 (strL ("/w/p")) [⟨strL ("/w"), strL ("W")⟩] [] (strL ("D")),
   by decide,
   ((c10_unexpandable_binding_skipped ⟨none, none⟩ ⟨strL ("~/x"), strL ("H")⟩
      (by decide)).2.2.2.2.2 (strL ("~/q")) [⟨strL ("~/x"), strL ("H")⟩]
      (by decide)).2.2.1⟩

/-!  C2 and C8: the gitconfig synchronizer. -/

lemma scanUpdate_nil (d pl : Str) : scanUpdate d pl [] = none := rfl

lemma scanUpdate_single (d pl l : Str) : scanUpdate d pl [l] = none := rfl

lemma scanUpdate_cons2 (d pl l1 l2 : Str) (rest : List Str) :
    scanUpdate d pl (l1 :: l2 :: rest)
      = if bareOf l1 = d ∧ isPathLine l2 = true then some (l1 :: pl :: rest)
        else (scanUpdate d pl (l2 :: rest)).map (fun r => l1 :: r) := rfl

lemma scanUpdate_head {d pl : Str} {a : Str} {t : List Str} {r : List Str}
    (h : scanUpdate d pl (a :: t) = some r) : ∃ t', r = a :: t' := by
  cases t with
  | nil => rw [scanUpdate_single] at h; cases h
  | cons l2 rest =>
    rw [scanUpdate_cons2] at h
    by_cases hc : bareOf a = d ∧ isPathLine l2 = true
    · rw [if_pos hc, Option.some_inj] at h
      exact ⟨pl :: rest, h.symm⟩
    · rw [if_neg hc] at h
      cases hs : scanUpdate d pl (l2 :: rest) with
      | none => rw [hs] at h; cases h
      | some r' =>
        rw [hs] at h
        simp only [Option.map_some', Option.some_inj] at h
        exact ⟨r', h.symm⟩

lemma scanUpdate_some_again {d pl : Str} (hpl : isPathLine pl = true) :
    ∀ {l r : List Str}, scanUpdate d pl l = some r → scanUpdate d pl r = some r := by
  intro l
  induction l with
  | nil => intro r h; rw [scanUpdate_nil] at h; cases h
  | cons l1 t ih =>
    intro r h
    cases t with
    | nil => rw [scanUpdate_single] at h; cases h
    | cons l2 rest =>
      rw [scanUpdate_cons2] at h
      by_cases hc : bareOf l1 = d ∧ isPathLine l2 = true
      · rw [if_pos hc, Option.some_inj] at h
        subst h
        rw [scanUpdate_cons2, if_pos ⟨hc.1, hpl⟩]
      · rw [if_neg hc] at h
        cases hs : scanUpdate d pl (l2 :: rest) with
        | none => rw [hs] at h; cases h
        | some r' =>
          rw [hs] at h
          simp only [Option.map_some', Option.some_inj] at h
          subst h
          obtain ⟨t', ht'⟩ := scanUpdate_head hs
          have hr' : scanUpdate d pl r' = some r' := ih hs
          rw [ht']
          rw [ht'] at hr'
          rw [scanUpdate_cons2, if_neg hc, hr']
          rfl

lemma scanUpdate_none_iff_chain (d pl : Str) :
    ∀ l : List Str, scanUpdate d pl l = none ↔
      List.Chain' (fun a b => ¬(bareOf a = d ∧ isPathLine b = true)) l := by
  intro l
  induction l with
  | nil => simp [scanUpdate_nil]
  | cons l1 t ih =>
    cases t with
    | nil => simp [scanUpdate_single]
    | cons l2 rest =>
      rw [scanUpdate_cons2, List.chain'_cons]
      by_cases hc : bareOf l1 = d ∧ isPathLine l2 = true
      · rw [if_pos hc]
        simp [hc]
      · rw [if_neg hc]
        cases hs : scanUpdate d pl (l2 :: rest) with
        | none =>
          rw [hs] at ih
          simp only [Option.map_none']
          constructor
          · intro _
            exact ⟨hc, ih.mp rfl⟩
          · intro _
            trivial
        | some r' =>
          rw [hs] at ih
          simp only [Option.map_some']
          constructor
          · intro h; cases h
          · rintro ⟨-, hch⟩
            exact absurd (ih.mpr hch) (by simp)

lemma scanUpdate_append {d pl : Str} {h2 : Str} (hh2 : isPathLine h2 = false) :
    ∀ (xs ys : List Str),
      List.Chain' (fun a b => ¬(bareOf a = d ∧ isPathLine b = true)) xs →
      scanUpdate d pl (xs ++ h2 :: ys) = (scanUpdate d pl (h2 :: ys)).map (fun r => xs ++ r) := by
  intro xs
  induction xs with
  | nil =>
    intro ys _
    simp only [List.nil_append]
    cases hs : scanUpdate d pl (h2 :: ys) <;> simp
  | cons a xs' ih =>
    intro ys hch
    cases xs' with
    | nil =>
      simp only [List.nil_append, List.cons_append]
      rw [scanUpdate_cons2, if_neg (by simp [hh2])]
    | cons b xs'' =>
      have hab : ¬(bareOf a = d ∧ isPathLine b = true) :=
        (List.chain'_cons.mp hch).1
      have hch' : List.Chain' (fun a b => ¬(bareOf a = d ∧ isPathLine b = true)) (b :: xs'') :=
        (List.chain'_cons.mp hch).2
      simp only [List.cons_append]
      rw [scanUpdate_cons2, if_neg hab]
      have ih' := ih ys hch'
      simp only [List.cons_append] at ih'
      rw [ih']
      cases hs : scanUpdate d pl (h2 :: ys) <;> simp

lemma addIncludeIf_eq_update {dp fp : Str} {lines r : List Str}
    (h : scanUpdate (directiveFor (ensureSlash dp)) (pathLineFor fp) lines = some r) :
    addIncludeIf dp fp lines = r := by
  unfold addIncludeIf
  rw [h]

lemma addIncludeIf_eq_append {dp fp : Str} {lines : List Str}
    (h : scanUpdate (directiveFor (ensureSlash dp)) (pathLineFor fp) lines = none) :
    addIncludeIf dp fp lines
      = (if lines ≠ [] ∧ lines.getLast? ≠ some [] then lines ++ [[]] else lines)
        ++ [directiveFor (ensureSlash dp) ++ ' ' :: marker, pathLineFor fp] := by
  unfold addIncludeIf
  rw [h]

lemma isPathLine_empty : isPathLine [] = false := rfl

lemma addIncludeIf_idem (dp fp : Str)
    (H1 : isPathLine (pathLineFor fp) = true)
    (H2 : isPathLine (directiveFor (ensureSlash dp) ++ ' ' :: marker) = false)
    (H3 : bareOf (directiveFor (ensureSlash dp) ++ ' ' :: marker)
      = directiveFor (ensureSlash dp)) :
    ∀ lines : List Str, addIncludeIf dp fp (addIncludeIf dp fp lines) = addIncludeIf dp fp lines := by
  intro lines
  set d := directiveFor (ensureSlash dp) with hd
  set pl := pathLineFor fp with hpl
  have hdmpl : scanUpdate d pl [d ++ ' ' :: marker, pl] = some [d ++ ' ' :: marker, pl] := by
    rw [scanUpdate_cons2, if_pos ⟨H3, H1⟩]
  cases hs : scanUpdate d pl lines with
  | some r =>
    rw [addIncludeIf_eq_update hs, addIncludeIf_eq_update (scanUpdate_some_again H1 hs)]
  | none =>
    have hch := (scanUpdate_none_iff_chain d pl lines).mp hs
    rw [addIncludeIf_eq_append hs]
    by_cases hb : lines ≠ [] ∧ lines.getLast? ≠ some []
    · rw [if_pos hb]
      have hshape : ((lines ++ [[]]) ++ [d ++ ' ' :: marker, pl] : List Str)
          = lines ++ ([] : Str) :: [d ++ ' ' :: marker, pl] := by
        simp
      rw [hshape]
      have hsc : scanUpdate d pl (lines ++ ([] : Str) :: [d ++ ' ' :: marker, pl])
          = some (lines ++ ([] : Str) :: [d ++ ' ' :: marker, pl]) := by
        rw [scanUpdate_append isPathLine_empty lines _ hch]
        rw [scanUpdate_cons2, if_neg (by simp [H2])]
        rw [hdmpl]
        rfl
      rw [addIncludeIf_eq_update hsc]
    · rw [if_neg hb]
      have hsc : scanUpdate d pl (lines ++ [d ++ ' ' :: marker, pl])
          = some (lines ++ [d ++ ' ' :: marker, pl]) := by
        rw [show ([d ++ ' ' :: marker, pl] : List Str) = (d ++ ' ' :: marker) :: [pl] from rfl,
          scanUpdate_append H2 lines [pl] hch, hdmpl]
        rfl
      rw [addIncludeIf_eq_update hsc]

/-- C2: calling `AddIncludeIf` N ≥ 1 times with the same directory and
fragment path yields the same gitconfig line content as calling it once;
and starting from content with no directive line for that directory, the
result contains exactly one.  (The hypotheses are facts about the derived
directive and path-line strings, discharged by computation at any concrete
directory and fragment path.) -/
theorem c2_add_include_if_idempotent (dp fp : Str) (lines : List Str) (n : Nat)
    (hn : 1 ≤ n)
    (H1 : isPathLine (pathLineFor fp) = true)
    (H2 : isPathLine (directiveFor (ensureSlash dp) ++ ' ' :: marker) = false)
    (H3 : bareOf (directiveFor (ensureSlash dp) ++ ' ' :: marker)
      = directiveFor (ensureSlash dp))
    (H4 : bareOf (pathLineFor fp) ≠ directiveFor (ensureSlash dp))
    (H5 : directiveFor (ensureSlash dp) ≠ []) :
    (addIncludeIf dp fp)^[n] lines = addIncludeIf dp fp lines ∧
    ((∀ l ∈ lines, bareOf l ≠ directiveFor (ensureSlash dp)) →
      (addIncludeIf dp fp lines).countP
        (fun l => bareOf l == directiveFor (ensureSlash dp)) = 1) := by
  constructor
  · obtain ⟨m, rfl⟩ : ∃ m, n = m + 1 := ⟨n - 1, by omega⟩
    clear hn
    induction m with
    | zero => rfl
    | succ k ihk =>
      rw [Function.iterate_succ_apply', ihk, addIncludeIf_idem dp fp H1 H2 H3]
  · intro hno
    have hch : List.Chain'
        (fun a b => ¬(bareOf a = directiveFor (ensureSlash dp) ∧ isPathLine b = true))
        lines := by
      have : ∀ l : List Str, (∀ x ∈ l, bareOf x ≠ directiveFor (ensureSlash dp)) →
          List.Chain'
            (fun a b => ¬(bareOf a = directiveFor (ensureSlash dp) ∧ isPathLine b = true))
            l := by
        intro l
        induction l with
        | nil => intro _; exact List.chain'_nil
        | cons a t iht =>
          intro hl
          cases t with
          | nil => exact List.chain'_singleton a
          | cons b t' =>
            rw [List.chain'_cons]
            refine ⟨fun hcontra => hl a (List.mem_cons_self _ _) hcontra.1, ?_⟩
            exact iht fun x hx => hl x (List.mem_cons_of_mem _ hx)
      exact this lines hno
    have hs : scanUpdate (directiveFor (ensureSlash dp)) (pathLineFor fp) lines = none :=
      (scanUpdate_none_iff_chain _ _ lines).mpr hch
    rw [addIncludeIf_eq_append hs]
    rw [List.countP_append]
    have hl1 : ∀ l1 : List Str, (∀ x ∈ l1, bareOf x ≠ directiveFor (ensureSlash dp)) →
        l1.countP (fun l => bareOf l == directiveFor (ensureSlash dp)) = 0 := by
      intro l1 hl1
      rw [List.countP_eq_zero]
      intro a ha
      simp only [beq_iff_eq]
      exact hl1 a ha
    have hpart1 :
        (if lines ≠ [] ∧ lines.getLast? ≠ some [] then lines ++ [[]] else lines).countP
          (fun l => bareOf l == directiveFor (ensureSlash dp)) = 0 := by
      split_ifs with hb
      · rw [List.countP_append, hl1 lines hno]
        have hbe : bareOf ([] : Str) = [] := rfl
        simp [List.countP_cons, hbe, beq_iff_eq]
        intro hcontra
        exact H5 hcontra
      · exact hl1 lines hno
    rw [hpart1]
    have hdm : (bareOf (directiveFor (ensureSlash dp) ++ ' ' :: marker)
        == directiveFor (ensureSlash dp)) = true := by
      rw [beq_iff_eq]
      exact H3
    have hplr : (bareOf (pathLineFor fp) == directiveFor (ensureSlash dp)) = false := by
      rw [beq_eq_false_iff_ne]
      exact H4
    simp [List.countP_cons, hdm, hplr]

/-- C2 witness: three applications on an initially nonempty user gitconfig
equal one application, and the result holds exactly one directive line. -/
theorem c2_add_include_if_idempotent_witness :
    isPathLine (pathLineFor (strL ("/cfg/w.gitconfig"))) = true ∧
    ((addIncludeIf (strL ("/test/dir")) (strL ("/cfg/w.gitconfig")))^[3]
        [strL ("[user]"), strL ("    name = X")]
      = addIncludeIf (strL ("/test/dir")) (strL ("/cfg/w.gitconfig"))
        [strL ("[user]"), strL ("    name = X")]) ∧
    (addIncludeIf (strL ("/test/dir")) (strL ("/cfg/w.gitconfig"))
        [strL ("[user]"), strL ("    name = X")]).countP
      (fun l => bareOf l == directiveFor (ensureSlash (strL ("/test/dir")))) = 1 :=
  ⟨by decide,
   (c2_add_include_if_idempotent (strL ("/test/dir")) (strL ("/cfg/w.gitconfig"))
      [strL ("[user]"), strL ("    name = X")] 3 (by decide) (by decide) (by decide)
      (by decide) (by decide) (by decide)).1,
   (c2_add_include_if_idempotent (strL ("/test/dir")) (strL ("/cfg/w.gitconfig"))
      [strL ("[user]"), strL ("    name = X")] 3 (by decide) (by decide) (by decide)
      (by decide) (by decide) (by decide)).2 (by decide)⟩

/-!  C8: line recognition in the three synchronizer operations. -/

lemma removeMatches_nil (d : Str) (skip : Bool) : removeMatches d skip [] = [] := rfl

lemma removeMatches_cons (d : Str) (skip : Bool) (l : Str) (rest : List Str) :
    removeMatches d skip (l :: rest)
      = if isRemoveMatch d l then removeMatches d true rest
        else if skip ∧ isPathLine l = true then removeMatches d false rest
        else l :: removeMatches d false rest := rfl

lemma removeMatches_no_match {d : Str} :
    ∀ lines : List Str, (∀ l ∈ lines, isRemoveMatch d l = false) →
      removeMatches d false lines = lines := by
  intro lines
  induction lines with
  | nil => intro _; rfl
  | cons l rest ih =>
    intro hno
    rw [removeMatches_cons]
    rw [if_neg (by simp [hno l (List.mem_cons_self _ _)])]
    rw [if_neg (by simp)]
    rw [ih fun x hx => hno x (List.mem_cons_of_mem _ hx)]

/-- C8 (amended): `AddIncludeIf` and `RemoveIncludeIf` recognize a managed
directive only by whole trimmed lines (with or without the trailing marker):
on a file none of whose lines trim-equals the directive — even if lines
contain the directive or marker text as an inner substring — `AddIncludeIf`
keeps every line intact and appends a fresh block, and `RemoveIncludeIf`
removes nothing but trailing blank lines.  (`ListManagedIncludeIfs`,
by contrast, matches the marker by substring search; see the
counterexample.) -/
theorem c8_whole_line_matching (dp fp : Str) (lines : List Str)
    (hno : ∀ l ∈ lines, bareOf l ≠ directiveFor (ensureSlash dp))
    (hno2 : ∀ l ∈ lines, isRemoveMatch (directiveFor (ensureSlash dp)) l = false) :
    addIncludeIf dp fp lines
      = (if lines ≠ [] ∧ lines.getLast? ≠ some [] then lines ++ [[]] else lines)
        ++ [directiveFor (ensureSlash dp) ++ ' ' :: marker, pathLineFor fp] ∧
    removeIncludeIf dp lines = dropTrailingEmpty lines := by
  constructor
  · have hch : List.Chain'
        (fun a b => ¬(bareOf a = directiveFor (ensureSlash dp) ∧ isPathLine b = true))
        lines := by
      have : ∀ l : List Str, (∀ x ∈ l, bareOf x ≠ directiveFor (ensureSlash dp)) →
          List.Chain'
            (fun a b => ¬(bareOf a = directiveFor (ensureSlash dp) ∧ isPathLine b = true))
            l := by
        intro l
        induction l with
        | nil => intro _; exact List.chain'_nil
        | cons a t iht =>
          intro hl
          cases t with
          | nil => exact List.chain'_singleton a
          | cons b t' =>
            rw [List.chain'_cons]
            refine ⟨fun hcontra => hl a (List.mem_cons_self _ _) hcontra.1, ?_⟩
            exact iht fun x hx => hl x (List.mem_cons_of_mem _ hx)
      exact this lines hno
    exact addIncludeIf_eq_append ((scanUpdate_none_iff_chain _ _ lines).mpr hch)
  · unfold removeIncludeIf
    rw [removeMatches_no_match lines hno2]

/-- C8 witness: a line embedding the directive text inside longer content is
kept verbatim by `AddIncludeIf` (which appends a fresh block) and by
`RemoveIncludeIf`. -/
theorem c8_whole_line_matching_witness :
    (∀ l ∈ [strL ("path = /x [includeIf \"gitdir:/d/\"] extra")],
      bareOf l ≠ directiveFor (ensureSlash (strL ("/d")))) ∧
    addIncludeIf (strL ("/d")) (strL ("/f"))
        [strL ("path = /x [includeIf \"gitdir:/d/\"] extra")]
      = [strL ("path = /x [includeIf \"gitdir:/d/\"] extra"), [],
         directiveFor (ensureSlash (strL ("/d"))) ++ ' ' :: marker,
         pathLineFor (strL ("/f"))] ∧
    removeIncludeIf (strL ("/d")) [strL ("path = /x [includeIf \"gitdir:/d/\"] extra")]
      = [strL ("path = /x [includeIf \"gitdir:/d/\"] extra")] :=
  ⟨by decide,
   (c8_whole_line_matching (strL ("/d")) (strL ("/f"))
      [strL ("path = /x [includeIf \"gitdir:/d/\"] extra")] (by decide) (by decide)).1,
   (c8_whole_line_matching (strL ("/d")) (strL ("/f"))
      [strL ("path = /x [includeIf \"gitdir:/d/\"] extra")] (by decide) (by decide)).2⟩

/-- C8 counterexample: `ListManagedIncludeIfs` matches by substring: a line
whose trimmed form does not equal the directive (with or without marker) but
merely contains the marker and directive text inside longer content is still
reported as a managed directive for `/d/`. -/
theorem c8_whole_line_matching_cex :
    listManagedIncludeIfs
        [strL ("path = /x [includeIf \"gitdir:/d/\"] # managed by gh-identity")]
      = [strL ("/d/")] ∧
    trimSpace (strL ("path = /x [includeIf \"gitdir:/d/\"] # managed by gh-identity"))
      ≠ directiveFor (strL ("/d/")) ∧
    bareOf (strL ("path = /x [includeIf \"gitdir:/d/\"] # managed by gh-identity"))
      ≠ directiveFor (strL ("/d/")) := by
  refine ⟨by decide, by decide, by decide⟩

/-!  C5: the profile-remove cascade. -/

lemma removeMatches_not_match {d : Str} :
    ∀ (lines : List Str) (skip : Bool), ∀ l ∈ removeMatches d skip lines,
      isRemoveMatch d l = false := by
  intro lines
  induction lines with
  | nil => intro skip l hl; rw [removeMatches_nil] at hl; cases hl
  | cons a rest ih =>
    intro skip l hl
    rw [removeMatches_cons] at hl
    by_cases h1 : isRemoveMatch d a = true
    · rw [if_pos h1] at hl
      exact ih true l hl
    · rw [if_neg h1] at hl
      have h1f : isRemoveMatch d a = false := by
        cases hh : isRemoveMatch d a
        · rfl
        · exact absurd hh h1
      by_cases h2 : skip = true ∧ isPathLine a = true
      · rw [if_pos h2] at hl
        exact ih false l hl
      · rw [if_neg (by rw [show (skip ∧ isPathLine a = true) = (skip = true ∧ isPathLine a = true) from rfl]; exact h2)] at hl
        rcases List.mem_cons.mp hl with h | h
        · rw [h]; exact h1f
        · exact ih false l h

lemma removeMatches_sublist {d : Str} :
    ∀ (lines : List Str) (skip : Bool), List.Sublist (removeMatches d skip lines) lines := by
  intro lines
  induction lines with
  | nil => intro skip; rw [removeMatches_nil]
  | cons a rest ih =>
    intro skip
    rw [removeMatches_cons]
    by_cases h1 : isRemoveMatch d a = true
    · rw [if_pos h1]
      exact List.Sublist.cons a (ih true)
    · rw [if_neg h1]
      by_cases h2 : skip = true ∧ isPathLine a = true
      · rw [if_pos h2]
        exact List.Sublist.cons a (ih false)
      · rw [if_neg (by rw [show (skip ∧ isPathLine a = true) = (skip = true ∧ isPathLine a = true) from rfl]; exact h2)]
        exact List.Sublist.cons₂ a (ih false)

lemma dropTrailingEmpty_sublist (ls : List Str) : List.Sublist (dropTrailingEmpty ls) ls := by
  unfold dropTrailingEmpty
  have h1 : List.Sublist (ls.reverse.dropWhile (· == ([] : Str))) ls.reverse :=
    List.dropWhile_sublist _
  have h2 := h1.reverse
  rw [List.reverse_reverse] at h2
  exact h2

lemma removeIncludeIf_sublist (dp : Str) (lines : List Str) :
    List.Sublist (removeIncludeIf dp lines) lines := by
  unfold removeIncludeIf
  exact (dropTrailingEmpty_sublist _).trans (removeMatches_sublist lines false)

lemma removeIncludeIf_not_match (dp : Str) (lines : List Str) :
    ∀ l ∈ removeIncludeIf dp lines,
      isRemoveMatch (directiveFor (ensureSlash dp)) l = false := by
  intro l hl
  unfold removeIncludeIf at hl
  have hl2 := (dropTrailingEmpty_sublist _).subset hl
  exact removeMatches_not_match _ false l hl2

lemma foldRemove_sublist (env : Env) :
    ∀ (paths : List Str) (gc : List Str),
      List.Sublist (paths.foldl (fun gc p =>
        match expandPath env p with
        | none => gc
        | some v => removeIncludeIf v gc) gc) gc := by
  intro paths
  induction paths with
  | nil => intro gc; exact List.Sublist.refl gc
  | cons p rest ih =>
    intro gc
    rw [List.foldl_cons]
    refine (ih _).trans ?_
    cases hp : expandPath env p with
    | none => exact List.Sublist.refl gc
    | some v => exact removeIncludeIf_sublist v gc

lemma foldRemove_not_match (env : Env) :
    ∀ (paths : List Str) (gc : List Str) (p : Str) (v : Str),
      p ∈ paths → expandPath env p = some v →
      ∀ l ∈ paths.foldl (fun gc p =>
          match expandPath env p with
          | none => gc
          | some v => removeIncludeIf v gc) gc,
        isRemoveMatch (directiveFor (ensureSlash v)) l = false := by
  intro paths
  induction paths with
  | nil => intro gc p v hp; cases hp
  | cons p0 rest ih =>
    intro gc p v hp hv l hl
    rw [List.foldl_cons] at hl
    rcases List.mem_cons.mp hp with h | h
    · have hstep : (match expandPath env p0 with
          | none => gc
          | some w => removeIncludeIf w gc) = removeIncludeIf v gc := by
        rw [← h, hv]
      rw [hstep] at hl
      have hl2 := (foldRemove_sublist env rest _).subset hl
      exact removeIncludeIf_not_match v gc l hl2
    · exact ih _ p v h hv l hl

lemma removeProfile_some_eq {pf : ProfilesFile} {name : Str} {p : Profile}
    (h : pf.profiles.lookup name = some p) :
    removeProfile pf name
      = some { profiles := pf.profiles.filter (fun kv => kv.1 != name),
               default := if pf.default = name then [] else pf.default } := by
  unfold removeProfile
  rw [h]

lemma runProfileRemove_eq (env : Env) (configDir name : Str) (st : SysState)
    {p : Profile} (h : st.profiles.profiles.lookup name = some p) :
    runProfileRemove env configDir name st
      = some { profiles := { profiles := st.profiles.profiles.filter (fun kv => kv.1 != name),
                             default := if st.profiles.default = name then []
                                        else st.profiles.default },
               bindings := st.bindings.filter (fun b => b.profile != name),
               fragments := st.fragments.filter (fun f => f != fragPath configDir name),
               gitconfig :=
                 match env.home with
                 | none => st.gitconfig
                 | some _ =>
                   ((st.bindings.filter (fun b => b.profile == name)).map (·.path)).foldl
                     (fun gc p =>
                       match expandPath env p with
                       | none => gc
                       | some v => removeIncludeIf v gc) st.gitconfig } := by
  unfold runProfileRemove
  rw [removeProfile_some_eq h]

/-- C5: removing an existing profile clears the default-profile field when
it named the removed profile, and the cascade holds: afterward no stored
binding references the removed profile, the profile's fragment file is gone
from the fragment directory, and (when the home directory resolves, so the
global gitconfig is reachable) for every removed binding whose path expands,
no line of the global gitconfig still matches its includeIf directive. -/
theorem c5_remove_profile_cascade (env : Env) (configDir name : Str) (st : SysState)
    (p0 : Profile) (hname : st.profiles.profiles.lookup name = some p0)
    (hm : Str) (hhome : env.home = some hm) :
    ∃ st', runProfileRemove env configDir name st = some st' ∧
      st'.profiles.default
        = (if st.profiles.default = name then [] else st.profiles.default) ∧
      (∀ b ∈ st'.bindings, b.profile ≠ name) ∧
      fragPath configDir name ∉ st'.fragments ∧
      (∀ b ∈ st.bindings, b.profile = name → ∀ v, expandPath env b.path = some v →
        ∀ l ∈ st'.gitconfig, isRemoveMatch (directiveFor (ensureSlash v)) l = false) := by
  refine ⟨_, runProfileRemove_eq env configDir name st hname, rfl, ?_, ?_, ?_⟩
  · intro b hb
    have := (List.mem_filter.mp hb).2
    simpa [bne_iff_ne] using this
  · intro hcontra
    have := (List.mem_filter.mp hcontra).2
    simp [bne_iff_ne] at this
  · intro b hb hbn v hv l hl
    simp only [hhome] at hl
    have hmem : b.path ∈ (st.bindings.filter (fun b => b.profile == name)).map (·.path) := by
      refine List.mem_map.mpr ⟨b, ?_, rfl⟩
      refine List.mem_filter.mpr ⟨hb, ?_⟩
      simp [hbn]
    exact foldRemove_not_match env _ st.gitconfig b.path v hmem hv l hl

/-- C5 witness: removing profile `work` (also the default) with two
bindings, its fragment present, and its directive in the gitconfig. -/
theorem c5_remove_profile_cascade_witness :
    (⟨⟨[(strL ("work"), ⟨strL ("u"), strL ("n"), strL ("e"), []⟩)], strL ("work")⟩,
      [⟨strL ("/a"), strL ("work")⟩, ⟨strL ("/b"), strL ("other")⟩],
      [fragPath (strL ("/cfg")) (strL ("work"))],
      addIncludeIf (strL ("/a")) (strL ("/frag")) []⟩ : SysState).profiles.profiles.lookup
        (strL ("work"))
      = some ⟨strL ("u"), strL ("n"), strL ("e"), []⟩ ∧
    ∃ st', runProfileRemove ⟨some (strL ("/home/u")), none⟩ (strL ("/cfg")) (strL ("work"))
        ⟨⟨[(strL ("work"), ⟨strL ("u"), strL ("n"), strL ("e"), []⟩)], strL ("work")⟩,
         [⟨strL ("/a"), strL ("work")⟩, ⟨strL ("/b"), strL ("other")⟩],
         [fragPath (strL ("/cfg")) (strL ("work"))],
         addIncludeIf (strL ("/a")) (strL ("/frag")) []⟩ = some st' ∧
      st'.profiles.default = (if (strL ("work") : Str) = strL ("work") then []
        else strL ("work")) ∧
      (∀ b ∈ st'.bindings, b.profile ≠ strL ("work")) ∧
      fragPath (strL ("/cfg")) (strL ("work")) ∉ st'.fragments ∧
      (∀ b ∈ [⟨strL ("/a"), strL ("work")⟩, (⟨strL ("/b"), strL ("other")⟩ : Binding)],
        b.profile = strL ("work") →
        ∀ v, expandPath ⟨some (strL ("/home/u")), none⟩ b.path = some v →
        ∀ l ∈ st'.gitconfig, isRemoveMatch (directiveFor (ensureSlash v)) l = false) :=
  ⟨by decide,
   c5_remove_profile_cascade ⟨some (strL ("/home/u")), none⟩ (strL ("/cfg"))
     (strL ("work"))
     ⟨⟨[(strL ("work"), ⟨strL ("u"), strL ("n"), strL ("e"), []⟩)], strL ("work")⟩,
      [⟨strL ("/a"), strL ("work")⟩, ⟨strL ("/b"), strL ("other")⟩],
      [fragPath (strL ("/cfg")) (strL ("work"))],
      addIncludeIf (strL ("/a")) (strL ("/frag")) []⟩
     ⟨strL ("u"), strL ("n"), strL ("e"), []⟩ (by decide) (strL ("/home/u")) rfl⟩

/-!  C7: the shell projection formatters and their optional keys. -/

lemma startsWith_iff (s pre : Str) : startsWith s pre = true ↔ pre <+: s := by
  simp [startsWith, List.isPrefixOf_iff_prefix]

lemma not_isPrefix_append {p x : Str} (q : Str) (h1 : ¬ p <+: x) (h2 : ¬ x <+: p) :
    ¬ p <+: (x ++ q) := fun h =>
  (List.prefix_or_prefix_of_prefix h (List.prefix_append x q)).elim h1 h2

lemma isKeyStmt_indep_false {k x : Str} (h : keysIndep k x) (q : Str) :
    isKeyStmt k (x ++ q) = false := by
  unfold isKeyStmt
  rw [Bool.or_eq_false_iff]
  constructor
  · rw [Bool.eq_false_iff]
    intro hc
    exact not_isPrefix_append q h.1 h.2.1 ((startsWith_iff _ _).mp hc)
  · rw [Bool.eq_false_iff]
    intro hc
    exact not_isPrefix_append q h.2.2.1 h.2.2.2 ((startsWith_iff _ _).mp hc)

lemma isKeyStmt_writeFish_self (k v : Str) : isKeyStmt k (writeFishExport k v) = true := by
  unfold isKeyStmt writeFishExport
  rw [Bool.or_eq_true]
  left
  exact (startsWith_iff _ _).mpr (List.prefix_append _ _)

lemma isKeyStmt_writePosix_self (k v : Str) : isKeyStmt k (writePosixExport k v) = true := by
  unfold isKeyStmt writePosixExport
  rw [Bool.or_eq_true]
  right
  exact (startsWith_iff _ _).mpr (List.prefix_append _ _)

lemma isKeyStmt_writeFish_false {k k' : Str} (h : keysIndep k (fishHead k')) (v : Str) :
    isKeyStmt k (writeFishExport k' v) = false :=
  isKeyStmt_indep_false h _

lemma isKeyStmt_writePosix_false {k k' : Str} (h : keysIndep k (posixHead k')) (v : Str) :
    isKeyStmt k (writePosixExport k' v) = false :=
  isKeyStmt_indep_false h _

lemma isKeyStmt_ghSwitch_false {k : Str}
    (h : keysIndep k (strL ("gh auth switch --user "))) (u : Str) :
    isKeyStmt k (ghSwitchLine u) = false :=
  isKeyStmt_indep_false h _

/-- C7 (amended): the formatters omit exactly the optional keys when empty:
for every shell string and environment, the output contains a
`GIT_SSH_COMMAND` statement exactly when the resolved ssh command is
non-empty (then exactly one), and likewise `GIT_ASKPASS` in the token
variant; mandatory keys are always emitted, empty-valued or not (see the
counterexample refuting the all-keys claim). -/
theorem c7_formatter_ssh_omission (shell : Str) (envT : EnvOutputTok)
    (envS : EnvOutputSwitch) :
    countKey (strL ("GIT_SSH_COMMAND")) (formatExports shell envT)
      = (if envT.ghSSHCommand = [] then 0 else 1) ∧
    countKey (strL ("GIT_ASKPASS")) (formatExports shell envT)
      = (if envT.gitAskPass = [] then 0 else 1) ∧
    countKey (strL ("GIT_SSH_COMMAND")) (formatOutput shell envS)
      = (if envS.ghSSHCommand = [] then 0 else 1) := by
  have f1 : ∀ v, isKeyStmt (strL ("GIT_SSH_COMMAND"))
      (writeFishExport (strL ("GH_TOKEN")) v) = false :=
    fun v => isKeyStmt_writeFish_false (by decide) v
  have f2 : ∀ v, isKeyStmt (strL ("GIT_SSH_COMMAND"))
      (writeFishExport (strL ("GIT_AUTHOR_NAME")) v) = false :=
    fun v => isKeyStmt_writeFish_false (by decide) v
  have f3 : ∀ v, isKeyStmt (strL ("GIT_SSH_COMMAND"))
      (writeFishExport (strL ("GIT_AUTHOR_EMAIL")) v) = false :=
    fun v => isKeyStmt_writeFish_false (by decide) v
  have f4 : ∀ v, isKeyStmt (strL ("GIT_SSH_COMMAND"))
      (writeFishExport (strL ("GIT_COMMITTER_NAME")) v) = false :=
    fun v => isKeyStmt_writeFish_false (by decide) v
  have f5 : ∀ v, isKeyStmt (strL ("GIT_SSH_COMMAND"))
      (writeFishExport (strL ("GIT_COMMITTER_EMAIL")) v) = false :=
    fun v => isKeyStmt_writeFish_false (by decide) v
  have f6 : ∀ v, isKeyStmt (strL ("GIT_SSH_COMMAND"))
      (writeFishExport (strL ("GH_IDENTITY_PROFILE")) v) = false :=
    fun v => isKeyStmt_writeFish_false (by decide) v
  have f7 : ∀ v, isKeyStmt (strL ("GIT_SSH_COMMAND"))
      (writeFishExport (strL ("GIT_ASKPASS")) v) = false :=
    fun v => isKeyStmt_writeFish_false (by decide) v
  have f8 : ∀ v, isKeyStmt (strL ("GIT_SSH_COMMAND"))
      (writeFishExport (strL ("GIT_SSH_COMMAND")) v) = true :=
    fun v => isKeyStmt_writeFish_self _ v
  have p1 : ∀ v, isKeyStmt (strL ("GIT_SSH_COMMAND"))
      (writePosixExport (strL ("GH_TOKEN")) v) = false :=
    fun v => isKeyStmt_writePosix_false (by decide) v
  have p2 : ∀ v, isKeyStmt (strL ("GIT_SSH_COMMAND"))
      (writePosixExport (strL ("GIT_AUTHOR_NAME")) v) = false :=
    fun v => isKeyStmt_writePosix_false (by decide) v
  have p3 : ∀ v, isKeyStmt (strL ("GIT_SSH_COMMAND"))
      (writePosixExport (strL ("GIT_AUTHOR_EMAIL")) v) = false :=
    fun v => isKeyStmt_writePosix_false (by decide) v
  have p4 : ∀ v, isKeyStmt (strL ("GIT_SSH_COMMAND"))
      (writePosixExport (strL ("GIT_COMMITTER_NAME")) v) = false :=
    fun v => isKeyStmt_writePosix_false (by decide) v
  have p5 : ∀ v, isKeyStmt (strL ("GIT_SSH_COMMAND"))
      (writePosixExport (strL ("GIT_COMMITTER_EMAIL")) v) = false :=
    fun v => isKeyStmt_writePosix_false (by decide) v
  have p6 : ∀ v, isKeyStmt (strL ("GIT_SSH_COMMAND"))
      (writePosixExport (strL ("GH_IDENTITY_PROFILE")) v) = false :=
    fun v => isKeyStmt_writePosix_false (by decide) v
  have p7 : ∀ v, isKeyStmt (strL ("GIT_SSH_COMMAND"))
      (writePosixExport (strL ("GIT_ASKPASS")) v) = false :=
    fun v => isKeyStmt_writePosix_false (by decide) v
  have p8 : ∀ v, isKeyStmt (strL ("GIT_SSH_COMMAND"))
      (writePosixExport (strL ("GIT_SSH_COMMAND")) v) = true :=
    fun v => isKeyStmt_writePosix_self _ v
  have af1 : ∀ v, isKeyStmt (strL ("GIT_ASKPASS"))
      (writeFishExport (strL ("GH_TOKEN")) v) = false :=
    fun v => isKeyStmt_writeFish_false (by decide) v
  have af2 : ∀ v, isKeyStmt (strL ("GIT_ASKPASS"))
      (writeFishExport (strL ("GIT_AUTHOR_NAME")) v) = false :=
    fun v => isKeyStmt_writeFish_false (by decide) v
  have af3 : ∀ v, isKeyStmt (strL ("GIT_ASKPASS"))
      (writeFishExport (strL ("GIT_AUTHOR_EMAIL")) v) = false :=
    fun v => isKeyStmt_writeFish_false (by decide) v
  have af4 : ∀ v, isKeyStmt (strL ("GIT_ASKPASS"))
      (writeFishExport (strL ("GIT_COMMITTER_NAME")) v) = false :=
    fun v => isKeyStmt_writeFish_false (by decide) v
  have af5 : ∀ v, isKeyStmt (strL ("GIT_ASKPASS"))
      (writeFishExport (strL ("GIT_COMMITTER_EMAIL")) v) = false :=
    fun v => isKeyStmt_writeFish_false (by decide) v
  have af6 : ∀ v, isKeyStmt (strL ("GIT_ASKPASS"))
      (writeFishExport (strL ("GH_IDENTITY_PROFILE")) v) = false :=
    fun v => isKeyStmt_writeFish_false (by decide) v
  have af7 : ∀ v, isKeyStmt (strL ("GIT_ASKPASS"))
      (writeFishExport (strL ("GIT_SSH_COMMAND")) v) = false :=
    fun v => isKeyStmt_writeFish_false (by decide) v
  have af8 : ∀ v, isKeyStmt (strL ("GIT_ASKPASS"))
      (writeFishExport (strL ("GIT_ASKPASS")) v) = true :=
    fun v => isKeyStmt_writeFish_self _ v
  have ap1 : ∀ v, isKeyStmt (strL ("GIT_ASKPASS"))
      (writePosixExport (strL ("GH_TOKEN")) v) = false :=
    fun v => isKeyStmt_writePosix_false (by decide) v
  have ap2 : ∀ v, isKeyStmt (strL ("GIT_ASKPASS"))
      (writePosixExport (strL ("GIT_AUTHOR_NAME")) v) = false :=
    fun v => isKeyStmt_writePosix_false (by decide) v
  have ap3 : ∀ v, isKeyStmt (strL ("GIT_ASKPASS"))
      (writePosixExport (strL ("GIT_AUTHOR_EMAIL")) v) = false :=
    fun v => isKeyStmt_writePosix_false (by decide) v
  have ap4 : ∀ v, isKeyStmt (strL ("GIT_ASKPASS"))
      (writePosixExport (strL ("GIT_COMMITTER_NAME")) v) = false :=
    fun v => isKeyStmt_writePosix_false (by decide) v
  have ap5 : ∀ v, isKeyStmt (strL ("GIT_ASKPASS"))
      (writePosixExport (strL ("GIT_COMMITTER_EMAIL")) v) = false :=
    fun v => isKeyStmt_writePosix_false (by decide) v
  have ap6 : ∀ v, isKeyStmt (strL ("GIT_ASKPASS"))
      (writePosixExport (strL ("GH_IDENTITY_PROFILE")) v) = false :=
    fun v => isKeyStmt_writePosix_false (by decide) v
  have ap7 : ∀ v, isKeyStmt (strL ("GIT_ASKPASS"))
      (writePosixExport (strL ("GIT_SSH_COMMAND")) v) = false :=
    fun v => isKeyStmt_writePosix_false (by decide) v
  have ap8 : ∀ v, isKeyStmt (strL ("GIT_ASKPASS"))
      (writePosixExport (strL ("GIT_ASKPASS")) v) = true :=
    fun v => isKeyStmt_writePosix_self _ v
  have g1 : ∀ u, isKeyStmt (strL ("GIT_SSH_COMMAND")) (ghSwitchLine u) = false :=
    fun u => isKeyStmt_ghSwitch_false (by decide) u
  have g2 : isKeyStmt (strL ("GIT_SSH_COMMAND"))
      (strL ("set -e GH_TOKEN 2>/dev/null\n")) = false := by decide
  have g3 : isKeyStmt (strL ("GIT_SSH_COMMAND"))
      (strL ("unset GH_TOKEN 2>/dev/null\n")) = false := by decide
  refine ⟨?_, ?_, ?_⟩
  · by_cases hsh : shell = strL ("fish") <;>
      by_cases h1 : envT.ghSSHCommand = [] <;>
        by_cases h2 : envT.gitAskPass = [] <;>
          simp [formatExports, countKey, hsh, h1, h2, List.countP_append,
            List.countP_cons, f1, f2, f3, f4, f5, f6, f7, f8,
            p1, p2, p3, p4, p5, p6, p7, p8]
  · by_cases hsh : shell = strL ("fish") <;>
      by_cases h1 : envT.ghSSHCommand = [] <;>
        by_cases h2 : envT.gitAskPass = [] <;>
          simp [formatExports, countKey, hsh, h1, h2, List.countP_append,
            List.countP_cons, af1, af2, af3, af4, af5, af6, af7, af8,
            ap1, ap2, ap3, ap4, ap5, ap6, ap7, ap8]
  · by_cases hsh : shell = strL ("fish") <;>
      by_cases h1 : envS.ghSSHCommand = [] <;>
        simp [formatOutput, countKey, hsh, h1, List.countP_append,
          List.countP_cons, f2, f3, f4, f5, f6, f8, p2, p3, p4, p5, p6, p8,
          g1, g2, g3]

/-- C7 counterexample: the all-empty token environment under the POSIX
dialect still emits a `GIT_AUTHOR_NAME` statement (indeed every mandatory
key), so the formatter does not omit every key whose value is empty. -/
theorem c7_formatter_ssh_omission_cex :
    countKey (strL ("GIT_AUTHOR_NAME"))
        (formatExports (strL ("bash")) ⟨[], [], [], [], [], [], [], []⟩) = 1 ∧
    (⟨[], [], [], [], [], [], [], []⟩ : EnvOutputTok).gitAuthorName = [] := by
  refine ⟨by decide, rfl⟩

/-- C4 witness: rebinding `/a` updates the first entry in place, and the
invariant is preserved on a concrete store. -/
theorem c4_add_binding_replace_witness :
    expandPath ⟨none, none⟩ (strL ("/a")) = some (strL ("/a")) ∧
    addBinding ⟨none, none⟩ [⟨strL ("/a"), strL ("old")⟩, ⟨strL ("/b"), strL ("x")⟩]
        (strL ("/a")) (strL ("new"))
      = some [⟨strL ("/a"), strL ("new")⟩, ⟨strL ("/b"), strL ("x")⟩] :=
  ⟨by decide,
   (c4_add_binding_replace ⟨none, none⟩ (strL ("/a")) (strL ("/a")) (strL ("new"))
      (by decide) (fun w h => Option.noConfusion h)).1
     [] ⟨strL ("/a"), strL ("old")⟩ [⟨strL ("/b"), strL ("x")⟩]
     (by decide) (by intro b' hb'; cases hb')⟩

/-- C9 witness: a matching binding with an empty profile name at `/a` is
reported as a default fallback. -/
theorem c9_empty_profile_as_no_match_witness :
    expandPath ⟨none, none⟩ (strL ("/a/b")) = some (strL ("/a/b")) ∧
    forDirectory ⟨none, none⟩ (strL ("/a/b")) [⟨strL ("/a"), []⟩] (strL ("D"))
      = some ⟨strL ("D"), [], true⟩ :=
  ⟨by decide,
   c9_empty_profile_as_no_match ⟨none, none⟩ (strL ("/a/b")) [⟨strL ("/a"), []⟩]
     (strL ("D")) (strL ("/a/b")) (by decide) (by decide)⟩

end GhIdentity
